import Mathlib

/-!
# Verification of the TPIE serialization sort, serialization streams and
# pipeline phase scheduler

This development gives a shallow embedding, in Lean 4, of the core
algorithms of the TPIE external-memory library:

* `tpie/serialization_sort.h` — the in-memory sorter for variable-length
  serialized records (`serialization_internal_sort`) and the external
  merge sort driver (`serialization_sort`);
* `tpie/serialization_stream.h` — the block-buffered serialization stream
  (`serialization_stream`) and the run writer (`serialization_writer_base`);
* `pipelining/graph.cpp` — the DFS-based topological sort
  (`dfs_traversal`), the phase graph (`phasegraph`), `phase::add` and
  `phase::go`.

Machine integers (`memory_size_type`, `stream_size_type`) are modelled as
`Nat`; the quantities involved (byte counts, item counts, fanouts) never
overflow 64 bits in any scenario considered here, and no arithmetic in the
modelled code relies on wrap-around.  C++ exceptions are modelled with
`Option`/`Except` (`none`/`.error` = an exception escapes the call).  Byte
values are modelled as `Nat`.
-/

namespace Tpie

/-! ## Strict weak orders

`serialization_sort` is parameterised on a comparator `pred_t` which, as
for `std::sort` / `std::priority_queue`, must be a strict weak order: an
irreflexive, transitive relation whose complement is transitive.  We model
the comparator as a `Bool`-valued function and package the strict-weak-order
requirements. -/

/-- The strict-weak-order contract that `std::sort` and
`std::priority_queue` demand of the user comparator. -/
def SWO {α : Type} (lt : α → α → Bool) : Prop :=
  (∀ a, lt a a = false) ∧
  (∀ a b c, lt a b = true → lt b c = true → lt a c = true) ∧
  (∀ a b c, lt a b = false → lt b c = false → lt a c = false)

/-- The non-strict order induced by a comparator: `a` may precede `b` in a
sorted sequence iff `b` is not strictly less than `a`.  A sequence is
"monotonic under the comparator" iff it is `List.Sorted (nlt lt)`. -/
def nlt {α : Type} (lt : α → α → Bool) (a b : α) : Prop := lt b a = false

instance {α : Type} (lt : α → α → Bool) : DecidableRel (nlt lt) :=
  fun a b => inferInstanceAs (Decidable (lt b a = false))


/-- `std::sort` on the pointer array, through
`serialization_predicate_wrapper` which deserializes both records and
applies the user predicate: a sorted permutation of the record sequence
under the comparator.  (`std::sort`'s tie order is unspecified; we model it
with insertion sort, which produces one particular sorted permutation.) -/
def runSort {α : Type} (lt : α → α → Bool) (l : List α) : List α :=
  List.insertionSort (nlt lt) l
/-! ## The in-memory sorter `serialization_internal_sort<T, pred_t>`

The sorter owns a byte buffer `m_buffer` of size `M` and a pointer array
`m_indexes`.  `push(item)` serializes the item into the buffer through the
sorter's own `write` callback; `sort()` sorts the pointer array;
`pull`/`read` stream the records back out.

The embedding abstracts bytes as follows.  A serializable type is a type
`α` together with a function `chunks : α → List Nat` giving the *lengths*
of the `write(s, n)` calls that `serialize(dst, item)` issues (the byte
*values* written never influence control flow, so only lengths are kept).
Record contents are represented by the item values themselves
(`unserialize` is the inverse of `serialize` for a serializable type), so
`m_indexes[0..m_items)` is modelled by the list `items` of accepted records
in insertion order.  The field `log` is a ghost journal recording the
`(offset, length)` of every `std::copy` into the buffer that `write`
actually performed; it lets us state that the sorter never touches a byte
at offset `≥ M`. -/

/-- State of `serialization_internal_sort`.  `bufSize` is
`m_buffer.size()`, `index` is `m_index`, `items` models
`m_indexes[0..m_items)` (the accepted records, in insertion order),
`largestItem` is `m_largestItem`, `itemsRead` is `m_itemsRead` and `full`
is `m_full`.  (`m_expectedItems` and the capacity of `m_indexes` only
govern the pointer-array reallocation and have no observable effect on the
behaviour modelled here.) -/
structure serialization_internal_sort (α : Type) where
  bufSize : Nat
  index : Nat
  items : List α
  largestItem : Nat
  itemsRead : Nat
  full : Bool
  log : List (Nat × Nat)

namespace serialization_internal_sort

variable {α : Type}

/-- `serialization_internal_sort::write(s, n)`: if the sorter is full or
the `n` bytes do not fit, mark full and write nothing; otherwise copy the
bytes at `m_index` and advance. -/
def write (st : serialization_internal_sort α) (n : Nat) :
    serialization_internal_sort α :=
  if st.full || decide (st.bufSize < st.index + n) then { st with full := true }
  else { st with index := st.index + n, log := st.log ++ [(st.index, n)] }

/-- `serialize(*this, item)`: the user serializer issues the chunk writes
of `item` in order. -/
def serializeItem (chunks : α → List Nat) (st : serialization_internal_sort α)
    (x : α) : serialization_internal_sort α :=
  (chunks x).foldl write st

/-- The `if (m_items == 0) m_index = 0;` step at the start of `push`. -/
def entryNorm (st : serialization_internal_sort α) :
    serialization_internal_sort α :=
  if st.items.length = 0 then { st with index := 0 } else st

/-- `serialization_internal_sort::push(item)`.  Returns the new state and
the `bool` result (`!m_full`). -/
def push (chunks : α → List Nat) (st : serialization_internal_sort α)
    (x : α) : serialization_internal_sort α × Bool :=
  let st := entryNorm st
  if st.bufSize ≤ st.index then ({ st with full := true }, false)
  else
    let st1 := serializeItem chunks st x
    if st1.full then (st1, false)
    else
      ({ st1 with items := st1.items ++ [x],
                  largestItem := max st1.largestItem (st1.index - st.index) },
       true)

/-- `begin(buffer, nItems)`: fresh state with an empty journal. -/
def beginState (M : Nat) : serialization_internal_sort α :=
  { bufSize := M, index := 0, items := [], largestItem := 0, itemsRead := 0,
    full := false, log := [] }

/-- `sort()`: sort the pointer array with the deserializing predicate
wrapper and rewind the read cursor. -/
def sortRecs (lt : α → α → Bool) (st : serialization_internal_sort α) :
    serialization_internal_sort α :=
  { st with items := Tpie.runSort lt st.items, itemsRead := 0 }

/-- `can_read()`. -/
def canRead (st : serialization_internal_sort α) : Bool :=
  decide (st.itemsRead < st.items.length)

/-- The records produced by calling `pull()` until `can_read()` is false. -/
def pullAll (st : serialization_internal_sort α) : List α :=
  st.items.drop st.itemsRead

/-- `reset()`: clear the run but keep the buffer size, the journal and the
remembered largest item size. -/
def reset (st : serialization_internal_sort α) :
    serialization_internal_sort α :=
  { st with index := 0, items := [], itemsRead := 0, full := false }

/-- A sequence of `push` calls; returns the final state and the list of
returned booleans. -/
def pushSeq (chunks : α → List Nat) (st : serialization_internal_sort α) :
    List α → serialization_internal_sort α × List Bool
  | [] => (st, [])
  | x :: xs =>
    let p := push chunks st x
    let q := pushSeq chunks p.1 xs
    (q.1, p.2 :: q.2)

/-- The operations a client may perform on the sorter between `begin` and
`end`: pushing an item, sorting, or clearing the run with `reset`. -/
inductive ISOp (α : Type) where
  | pushOp (x : α)
  | sortOp
  | resetOp

/-- Apply one client operation. -/
def applyOp (lt : α → α → Bool) (chunks : α → List Nat)
    (st : serialization_internal_sort α) :
    ISOp α → serialization_internal_sort α
  | .pushOp x => (push chunks st x).1
  | .sortOp => sortRecs lt st
  | .resetOp => reset st

/-- Apply a sequence of client operations. -/
def applyOps (lt : α → α → Bool) (chunks : α → List Nat)
    (st : serialization_internal_sort α)
    (ops : List (ISOp α)) : serialization_internal_sort α :=
  ops.foldl (applyOp lt chunks) st

def LogOK (st : serialization_internal_sort α) : Prop :=
  ∀ p ∈ st.log, p.1 + p.2 ≤ st.bufSize


end serialization_internal_sort

/-! ## The k-way merge of `serialization_sort::merge_runs`

`merge_runs(a, b, dst)` opens the runs `[a, b)`, seeds a
`std::priority_queue` (ordered by the *inverted* user predicate, so its
top is a least element) with each reader's first record tagged with the
reader index, and repeatedly pops the least record, writes it out and
refills from the corresponding reader.  Ties between equivalent records
are broken by the heap in an unspecified way; we model the heap by always
selecting the first reader index holding a minimal head, which is one of
the permitted behaviours. -/

/-- The heads of the non-exhausted runs, tagged with their run index
(the contents of the priority queue at a step of `merge_runs`). -/
def headsOf {α : Type} (runs : List (List α)) : List (Nat × α) :=
  (runs.enum).filterMap (fun p => p.2.head?.map (fun a => (p.1, a)))

/-- `pq.top()`: a least entry of the queue under the user predicate (the
queue comparator is the inverted predicate, so the C++ `top` is a
maximum under the inverted order, i.e. a minimum under `lt`).  Returns
the first minimal entry. -/
def pickMin {α : Type} (lt : α → α → Bool) :
    List (Nat × α) → Option (Nat × α)
  | [] => none
  | h :: t => some (t.foldl (fun acc c => if lt c.2 acc.2 then c else acc) h)

/-- One round of the `while (!pq.empty())` loop, fuelled by the total
number of records left. -/
def kmergeF {α : Type} (lt : α → α → Bool) :
    Nat → List (List α) → List α
  | 0, _ => []
  | fuel + 1, runs =>
    match pickMin lt (headsOf runs) with
    | none => []
    | some (i, a) => a :: kmergeF lt fuel (runs.set i ((runs.getD i []).tail))

/-- `merge_runs` on the records of the input runs. -/
def kmerge {α : Type} (lt : α → α → Bool) (runs : List (List α)) : List α :=
  kmergeF lt (runs.map List.length).sum runs

/-! ## The external sorter `serialization_sort<T, pred_t>`

Run files live in a temporary directory and hold serialized records; a
run's observable content is the record sequence it stores, so the run
files are modelled as a `List (List α)` in file-number order
(`m_sortedRunsOffset` merely renames files between passes).  Temporary
file accounting (`increment_temp_file_usage`, `m_firstFileUsed`,
`m_lastFileUsed`) has no effect on the records produced.

`calc_sorter_params` derives the byte-buffer size from `memAvail` via
`array<char>::memory_usage` / `array<char *>::memory_usage`; those
overhead functions live outside the sources modelled here, so the buffer
size `M` chosen by run formation is a parameter of the model, and the
memory constants `serialization_writer::memory_usage()` and
`serialization_reader::memory_usage()` are the parameters `w` and `r`
(the spec's writer and per-reader reservations). -/

/-- State of `serialization_sort`: the in-memory sorter plus the sorted
run files currently on disk. -/
structure serialization_sort (α : Type) where
  sorter : serialization_internal_sort α
  runs : List (List α)

namespace serialization_sort

variable {α : Type}

/-- The serialized size of an item: the total of its chunk lengths. -/
def sz (chunks : α → List Nat) (x : α) : Nat := (chunks x).sum

/-- The largest serialized item size in a list (0 if empty). -/
def maxSz (chunks : α → List Nat) (v : List α) : Nat :=
  v.foldr (fun x m => max (sz chunks x) m) 0

/-- Construction plus `begin()` with a byte buffer of `M` bytes. -/
def beginSort (M : Nat) : serialization_sort α :=
  { sorter := .beginState M, runs := [] }

/-- `end_run()`: sort the buffered records; if any are present, stream
them to a fresh run file and reset the sorter. -/
def end_run (lt : α → α → Bool) (s : serialization_sort α) :
    serialization_sort α :=
  let st := s.sorter.sortRecs lt
  if st.canRead = false then { s with sorter := st }
  else { sorter := st.reset, runs := s.runs ++ [st.pullAll] }

/-- `serialization_sort::push(item)`: try the in-memory sorter; on
failure flush the run and retry; if the retry also fails the exception
`"Couldn't fit a single item in buffer"` escapes (`none`). -/
def push (lt : α → α → Bool) (chunks : α → List Nat)
    (s : serialization_sort α) (x : α) : Option (serialization_sort α) :=
  match s.sorter.push chunks x with
  | (st1, true) => some { s with sorter := st1 }
  | (st1, false) =>
    let s1 := end_run lt { s with sorter := st1 }
    match s1.sorter.push chunks x with
    | (st2, true) => some { s1 with sorter := st2 }
    | (_, false) => none

/-- The grouping `[i, min(count, i + fanout))` of the merge loop:
consecutive groups of `fanout` runs.  (The loop `i += fanout` requires
`fanout ≥ 1` to advance; the code guarantees `fanout ≥ 2` before the
loop.) -/
def groupsOf {β : Type} (f : Nat) : List β → List (List β)
  | [] => []
  | x :: xs => (x :: xs.take (f - 1)) :: groupsOf f (xs.drop (f - 1))
termination_by l => l.length
decreasing_by simp only [List.length_drop, List.length_cons]; omega

/-- One pass of the `while (m_sortedRunsCount > 1)` loop: merge each
group of at most `fanout` consecutive runs into one new run; the input
run files of each group are removed, so exactly the merged outputs
remain. -/
def mergePass (lt : α → α → Bool) (f : Nat) (runs : List (List α)) :
    List (List α) :=
  (groupsOf f runs).map (kmerge lt)

/-- The merge loop, fuelled by the initial run count (each pass strictly
reduces the run count when `fanout ≥ 2`). -/
def mergeAll (lt : α → α → Bool) (f : Nat) :
    Nat → List (List α) → List (List α)
  | 0, runs => runs
  | fuel + 1, runs =>
    if runs.length ≤ 1 then runs
    else mergeAll lt f fuel (mergePass lt f runs)

/-- `serialization_sort::end()`: flush the final run, release the
in-memory sorter (`m_sorter.end()` frees the buffer but keeps the
remembered largest item size), then — unless no record had a positive
size — check the memory budget, compute the fanout and run the merge
loop.  `none` models the `"Not enough memory for merging."` exceptions. -/
def endSort (lt : α → α → Bool) (memAvail w r : Nat)
    (s : serialization_sort α) : Option (serialization_sort α) :=
  let s1 := end_run lt s
  let s2 : serialization_sort α :=
    { s1 with sorter := { s1.sorter.reset with bufSize := 0 } }
  let largestItem := s2.sorter.largestItem
  if largestItem = 0 then some s2
  else if memAvail ≤ w then none
  else
    let perFanout := largestItem + r
    let fanoutMemory := memAvail - w
    let fanout := fanoutMemory / perFanout
    if fanout < 2 then none
    else some { s2 with runs := mergeAll lt fanout s2.runs.length s2.runs }

/-- The pull phase: `pull()` opens run file 0 on first use (throwing if
it does not exist, i.e. if no run was ever written) and then
`can_pull()`/`pull()` stream its records out.  A run file is identified
with the record sequence written to it; this is faithful exactly when
every record serializes to at least one byte (as the amended claim
hypothesises): `serialization_writer::close` writes a data block only
when `m_index > 0` and the header stores only a byte count, so a record
of zero serialized bytes leaves no trace on disk and the byte-driven
reader could never return it, while under positivity the stored bytes
determine exactly the record sequence written. -/
def pullOutput (s : serialization_sort α) : Option (List α) :=
  match s.runs with
  | [] => none
  | rn :: _ => some rn

/-- The whole scenario: push every item of `v`, call `end()`, then pull
until `can_pull()` is false. -/
def sortAll (lt : α → α → Bool) (chunks : α → List Nat)
    (M memAvail w r : Nat) (v : List α) : Option (List α) := do
  let s ← v.foldlM (fun s x => push lt chunks s x) (beginSort M)
  let s ← endSort lt memAvail w r s
  pullOutput s

/-- The run-formation invariant: after pushing the items of `v` into a
sorter built with buffer size `M`, the sorter is not full, `m_index` is
the total serialized size of the buffered records, `m_largestItem` is the
largest serialized size seen so far, the run files plus the buffered
records hold exactly the pushed items, every run file is a sorted
non-empty record sequence, and a run file exists only if some record had
positive size. -/
def RF (lt : α → α → Bool) (chunks : α → List Nat) (M : Nat) (v : List α)
    (s : serialization_sort α) : Prop :=
  s.sorter.bufSize = M ∧
  s.sorter.full = false ∧
  s.sorter.index = (s.sorter.items.map (sz chunks)).sum ∧
  s.sorter.index ≤ M ∧
  s.sorter.largestItem = maxSz chunks v ∧
  (s.runs.flatten ++ s.sorter.items).Perm v ∧
  (∀ rn ∈ s.runs, rn.Sorted (nlt lt) ∧ rn ≠ []) ∧
  (s.runs = [] ∨ 0 < s.sorter.largestItem)

end serialization_sort

/-! ## The serialization stream (`serialization_stream.h/.cpp`)

A variable-length byte stream over a block-buffered file.  The on-disk
file consists of a 4096-aligned header (magic, version, size, cleanClose)
followed by 2 MiB blocks.  We model the header fields directly and the
block region as a total function `fdata : Nat → Nat` from byte offsets
(relative to the end of the header) to byte values; file bytes never
written read as 0.  `write_header` always stores the magic and version
constants, because every header the implementation writes was either
freshly produced by `init_header` or just validated by `verify_header`.
The in-memory block is likewise a function `blockData`; bytes of the
block array beyond the `read_block` fill are whatever was left there
(`tpie::array` storage), which the model keeps as the previous contents.

`read`/`write` loop until the request is exhausted, moving at least one
byte per iteration (the block size is positive), so fuelling the loop
with the request length is exact.  `read` reports `end_of_stream` only
on the block-boundary check of the source; `write` cannot fail.
C++ exceptions are an `Except streamError`. -/

/-- `serialization_stream::block_size()`. -/
def block_size : Nat := 2 * 1024 * 1024

/-- `stream_header_t::magicConst`. -/
def magicConst : Nat := 0xfa340f49edbada67

/-- `stream_header_t::versionConst`. -/
def versionConst : Nat := 1

/-- The on-disk file: header fields plus the block region. -/
structure sfile where
  magic : Nat
  version : Nat
  fsize : Nat
  cleanClose : Nat
  fdata : Nat → Nat

/-- `tpie::access_type`. -/
inductive access_type where
  | access_read
  | access_write
  | access_read_write

/-- The `stream_exception`s thrown by header verification and reading. -/
inductive streamError where
  | badMagic
  | versionOld
  | versionNew
  | notCleanClose
  | endOfStream
deriving DecidableEq

/-- The open stream: the resident block (`m_block`), cursor and flags. -/
structure serialization_stream where
  blockData : Nat → Nat
  blockSize : Nat
  blockOffset : Nat
  dirty : Bool
  index : Nat
  ssize : Nat
  canRead : Bool
  canWrite : Bool

namespace serialization_stream

/-- `read_block(offset)`: point the block at `offset`, clamp its size to
the logical end, fill it from the file (when non-empty), rewind the
cursor.  (The `size() - offset` subtraction is `Nat`-truncated; in C++
the unsigned subtraction would wrap, but every call site has
`offset ≤ size()`.) -/
def read_block (st : serialization_stream) (f : sfile) (offset : Nat) :
    serialization_stream :=
  let bsz := if st.ssize < block_size + offset then st.ssize - offset
             else block_size
  { st with blockOffset := offset, blockSize := bsz,
            blockData := fun i => if i < bsz then f.fdata (offset + i)
                                  else st.blockData i,
            index := 0, dirty := false }

/-- `write_block()`: write the valid bytes of the resident block to the
file at the block's offset. -/
def write_block (st : serialization_stream) (f : sfile) : sfile :=
  { f with fdata := fun i =>
      if st.blockOffset ≤ i ∧ i < st.blockOffset + st.blockSize then
        st.blockData (i - st.blockOffset)
      else f.fdata i }

/-- `flush_block()`. -/
def flush_block (st : serialization_stream) (f : sfile) :
    serialization_stream × sfile :=
  if st.dirty then ({ st with dirty := false }, write_block st f)
  else ({ st with dirty := false }, f)

/-- `update_block()`: flush, then load the next block. -/
def update_block (st : serialization_stream) (f : sfile) :
    serialization_stream × sfile :=
  let p := flush_block st f
  (read_block p.1 p.2 (st.blockOffset + block_size), p.2)

/-- One copy step of the `write` loop: copy
`writeSize = min(remaining, blockRemaining)` bytes of `s` into the block
at `m_index`, mark dirty, grow the block size and stream size. -/
def writeCopy (st1 : serialization_stream) (s : List Nat) :
    serialization_stream :=
  let wsz := min s.length (block_size - st1.index)
  { st1 with
    blockData := fun i =>
      if st1.index ≤ i ∧ i < st1.index + wsz then s.getD (i - st1.index) 0
      else st1.blockData i,
    index := st1.index + wsz,
    dirty := true,
    blockSize := max st1.blockSize (st1.index + wsz),
    ssize := max st1.ssize (st1.blockOffset + (st1.index + wsz)) }

/-- The loop of `serialization_stream::write(s, count)`, fuelled by the
byte count (each iteration copies at least one byte). -/
def writeAux : Nat → List Nat → serialization_stream → sfile →
    serialization_stream × sfile
  | 0, _, st, f => (st, f)
  | _ + 1, [], st, f => (st, f)
  | fuel + 1, b :: rest, st, f =>
    let p := if block_size ≤ st.index then update_block st f else (st, f)
    writeAux fuel
      ((b :: rest).drop (min (b :: rest).length (block_size - p.1.index)))
      (writeCopy p.1 (b :: rest)) p.2

/-- `serialization_stream::write(s, count)` (the `assert(m_canWrite)`
guards a programmer error and is outside the failure model). -/
def writeS (st : serialization_stream) (f : sfile) (s : List Nat) :
    serialization_stream × sfile :=
  writeAux s.length s st f

/-- The loop of `serialization_stream::read(s, count)`, fuelled by the
byte count.  The end-of-stream check happens exactly when the resident
block is exhausted (`m_index >= block_size()`), as in the source. -/
def readAux : Nat → Nat → serialization_stream → sfile →
    Except streamError (List Nat × serialization_stream × sfile)
  | 0, cnt, st, f =>
    if cnt = 0 then .ok ([], st, f) else .error .endOfStream
  | fuel + 1, cnt, st, f =>
    if cnt = 0 then .ok ([], st, f)
    else if block_size ≤ st.index then
      let offs := st.blockOffset + st.index
      if st.ssize ≤ offs ∨ st.ssize < offs + cnt then .error .endOfStream
      else
        let p := update_block st f
        let st1 := p.1
        let rsz := min cnt (block_size - st1.index)
        match readAux fuel (cnt - rsz) { st1 with index := st1.index + rsz }
            p.2 with
        | .ok (l, st', f') =>
          .ok (((List.range rsz).map
            (fun i => st1.blockData (st1.index + i))) ++ l, st', f')
        | .error e => .error e
    else
      let rsz := min cnt (block_size - st.index)
      match readAux fuel (cnt - rsz) { st with index := st.index + rsz } f with
      | .ok (l, st', f') =>
        .ok (((List.range rsz).map
          (fun i => st.blockData (st.index + i))) ++ l, st', f')
      | .error e => .error e

/-- `serialization_stream::read(s, count)`. -/
def readS (st : serialization_stream) (f : sfile) (cnt : Nat) :
    Except streamError (List Nat × serialization_stream × sfile) :=
  readAux cnt cnt st f

/-- `open(path, access_read_write, _)` on a path with no existing file:
`try_open_rw` fails, `open_rw_new` creates an empty file, the fresh
header (`size = 0`, `cleanClose = 0`) is written, and `read_block(0)`
loads the (empty) first block. -/
def openFreshRW : serialization_stream × sfile :=
  let f : sfile :=
    { magic := magicConst, version := versionConst,
      fsize := 0, cleanClose := 0, fdata := fun _ => 0 }
  let st : serialization_stream :=
    { blockData := fun _ => 0, blockSize := 0, blockOffset := 0,
      dirty := false, index := 0, ssize := 0,
      canRead := true, canWrite := true }
  (read_block st f 0, f)

/-- `open(path, accessType, requireCleanClose)` on an existing file.
Read-write: read and verify the header, optionally verify clean close,
then rewrite the header with `cleanClose = 0`.  Read-only: verify the
header only (`requireCleanClose` is never consulted).  Write-only:
`open_wo` does not read the header; a fresh header with `size = 0` and
`cleanClose = 0` is written. -/
def openEx (f : sfile) (acc : access_type) (requireCleanClose : Bool) :
    Except streamError (serialization_stream × sfile) :=
  match acc with
  | .access_read_write =>
    if f.magic ≠ magicConst then .error .badMagic
    else if f.version < versionConst then .error .versionOld
    else if versionConst < f.version then .error .versionNew
    else if requireCleanClose ∧ f.cleanClose ≠ 1 then .error .notCleanClose
    else
      let f1 : sfile :=
        { f with magic := magicConst,
                 version := versionConst, cleanClose := 0 }
      let st : serialization_stream :=
        { blockData := fun _ => 0, blockSize := 0, blockOffset := 0,
          dirty := false, index := 0, ssize := f.fsize,
          canRead := true, canWrite := true }
      .ok (read_block st f1 0, f1)
  | .access_read =>
    if f.magic ≠ magicConst then .error .badMagic
    else if f.version < versionConst then .error .versionOld
    else if versionConst < f.version then .error .versionNew
    else
      let st : serialization_stream :=
        { blockData := fun _ => 0, blockSize := 0, blockOffset := 0,
          dirty := false, index := 0, ssize := f.fsize,
          canRead := true, canWrite := false }
      .ok (read_block st f 0, f)
  | .access_write =>
    let f1 : sfile :=
      { f with magic := magicConst,
               version := versionConst, fsize := 0, cleanClose := 0 }
    let st : serialization_stream :=
      { blockData := fun _ => 0, blockSize := 0, blockOffset := 0,
        dirty := false, index := 0, ssize := 0,
        canRead := false, canWrite := true }
    .ok (read_block st f1 0, f1)

/-- `close()`: flush the resident block; on a writable stream write the
header with the final size and `cleanClose = 1`. -/
def closeS (st : serialization_stream) (f : sfile) : sfile :=
  let p := flush_block st f
  if st.canWrite then
    { p.2 with magic := magicConst, version := versionConst,
               fsize := st.ssize, cleanClose := 1 }
  else p.2

/-- `can_read()`. -/
def can_read (st : serialization_stream) : Bool :=
  decide (st.index < st.blockSize) ||
    decide (st.blockOffset + st.index < st.ssize)

/-- A sequence of `write` calls. -/
def writeAll (v : List (List Nat)) (p : serialization_stream × sfile) :
    serialization_stream × sfile :=
  v.foldl (fun p c => writeS p.1 p.2 c) p

/-- The invariant of a fresh writing session: after `openFreshRW`
followed by writing the byte sequence `W`, the stream holds the tail of
`W` in the resident block, the file holds the flushed prefix, and the
on-disk header still says `size = 0`, `cleanClose = 0`. -/
def WInv (W : List Nat) (st : serialization_stream) (f : sfile) : Prop :=
  st.canWrite = true ∧ st.canRead = true ∧
  st.ssize = W.length ∧
  st.blockOffset % block_size = 0 ∧
  st.blockOffset ≤ W.length ∧ W.length ≤ st.blockOffset + block_size ∧
  st.index = W.length - st.blockOffset ∧
  st.blockSize = st.index ∧
  (st.dirty = false → st.index = 0) ∧
  (∀ i, i < st.index → st.blockData i = W.getD (st.blockOffset + i) 0) ∧
  (∀ i, i < st.blockOffset → f.fdata i = W.getD i 0) ∧
  f.magic = magicConst ∧ f.version = versionConst ∧
  f.cleanClose = 0 ∧ f.fsize = 0

/-- The invariant of a reading cursor at logical position `p` over a
stream whose content is `W`. -/
def RInv (W : List Nat) (p : Nat) (st : serialization_stream) (f : sfile) :
    Prop :=
  st.canRead = true ∧
  st.ssize = W.length ∧
  st.blockOffset % block_size = 0 ∧
  st.blockOffset ≤ W.length ∧
  st.index ≤ block_size ∧
  p = st.blockOffset + st.index ∧
  st.dirty = false ∧
  st.blockSize = min block_size (W.length - st.blockOffset) ∧
  (∀ i, i < st.blockSize → st.blockData i = W.getD (st.blockOffset + i) 0) ∧
  (∀ i, i < W.length → f.fdata i = W.getD i 0)

/-- A complete writing session: open a fresh read-write stream, write
the chunks of `v`, close.  The resulting on-disk file. -/
def closedFile (v : List (List Nat)) : sfile :=
  closeS (writeAll v openFreshRW).1 (writeAll v openFreshRW).2

end serialization_stream

/-! ## The run writer `serialization_writer_base`

`open` writes a fresh header with `cleanClose = 0`; `write_block` appends
a block of at most `block_size` bytes at the next block offset;
`close` writes the header with the final size and `cleanClose = 1`. -/

/-- State of `serialization_writer_base`: blocks written and byte size. -/
structure serialization_writer_base where
  blocksWritten : Nat
  wsize : Nat

namespace serialization_writer_base

/-- `serialization_writer_base::open`. -/
def openW (f : sfile) : serialization_writer_base × sfile :=
  ({ blocksWritten := 0, wsize := 0 },
   { f with magic := magicConst, version := versionConst,
            fsize := 0, cleanClose := 0 })

/-- `serialization_writer_base::write_block(s, n)`. -/
def writeBlockW (wb : serialization_writer_base) (f : sfile)
    (s : List Nat) : serialization_writer_base × sfile :=
  let offset := wb.blocksWritten * block_size
  ({ blocksWritten := wb.blocksWritten + 1, wsize := offset + s.length },
   { f with fdata := fun i =>
              if offset ≤ i ∧ i < offset + s.length then s.getD (i - offset) 0
              else f.fdata i })

/-- `serialization_writer_base::close`. -/
def closeW (wb : serialization_writer_base) (f : sfile) : sfile :=
  { f with magic := magicConst, version := versionConst,
           fsize := wb.wsize, cleanClose := 1 }

end serialization_writer_base


/-! ## The pipelining phase scheduler (`pipelining/graph.cpp`)

`dfs_traversal` computes DFS finish times over a graph whose nodes are
natural-number ids; `toposort` orders the nodes by decreasing finish
time (`std::sort` over `(-finish, node)` pairs).  `phasegraph` lifts the
`depends` relations to connected-component representatives;
`execution_order` is its DFS toposort.  `phase::add` collects segments
and initiators; `phase::go` emits the `begin`/`go`/`end` calls. -/

namespace pipelining

/-- A graph in the shape consumed by `dfs_traversal`: the ordered key
sequence of the `finish_times` map and the adjacency lists of the
`edges` map. -/
structure dgraph where
  keys : List Nat
  edges : Nat → List Nat

/-- `dfs_traversal::dfs_from`: stamp the start node with the discovery
time, recurse into each not-yet-stamped neighbour, then overwrite the
stamp with the finish time.  The fuel bounds the recursion depth;
callers supply more fuel than there are unvisited keys, which is always
enough because every recursive call consumes an unvisited key. -/
def dfs_from (g : dgraph) : Nat → Nat → Int → (Nat → Int) → ((Nat → Int) × Int)
  | 0, _, time, times => (times, time)
  | fuel + 1, start, time, times =>
    let times1 : Nat → Int := fun v => if v = start then time else times v
    let p := (g.edges start).foldl
      (fun (q : (Nat → Int) × Int) n =>
        if q.1 n ≠ 0 then q else dfs_from g fuel n q.2 q.1)
      (times1, time + 1)
    (fun v => if v = start then p.2 else p.1 v, p.2 + 1)

/-- `dfs_traversal::dfs`: zero all stamps, then run `dfs_from` from
every still-unstamped node, iterating the key map in reverse order with
the global clock starting at 1. -/
def dfs_all (g : dgraph) : (Nat → Int) × Int :=
  g.keys.reverse.foldl
    (fun (q : (Nat → Int) × Int) n =>
      if q.1 n ≠ 0 then q else dfs_from g (g.keys.length + 1) n q.2 q.1)
    (fun _ => (0 : Int), 1)

/-- The `std::sort` order on `(-finish, node)` pairs (lexicographic). -/
def pairLE (a b : Int × Nat) : Prop :=
  a.1 < b.1 ∨ (a.1 = b.1 ∧ a.2 ≤ b.2)

instance (a b : Int × Nat) : Decidable (pairLE a b) := by
  unfold pairLE
  exact inferInstance

/-- `dfs_traversal::toposort`: sort the keys by decreasing finish time
(`std::sort` over `(-finish, node)` pairs, then project the nodes). -/
def toposort (g : dgraph) : List Nat :=
  ((g.keys.map (fun n => (-(dfs_all g).1 n, n))).insertionSort pairLE).map
    (fun q => q.2)

/-- `phasegraph::execution_order`: DFS, then toposort. -/
def execution_order (g : dgraph) : List Nat := toposort g

/-- The `pipe_segment` relation kinds. -/
inductive relType where
  | pushes
  | pulls
  | depends
deriving DecidableEq

/-- Modelled from the spec: `tpie::disjoint_sets` (its header is not
among the sources) is abstracted by the representative map `rep` that
`find_set` computes over the pushes-and-pulls components; the
`phasegraph` constructor inserts one key per representative, iterating
ids in ascending order (`std::map`), so the key list is the ascending
list of fixpoints of `rep` below `n`. -/
def phase_keys (rep : Nat → Nat) (n : Nat) : List Nat :=
  (List.range n).filter (fun i => rep i == i)

/-- The `phasegraph` adjacency accumulated by `graph_traits::calc_phases`:
for every `depends` relation, `edges[dependee].push_back(depender)`,
lifted to phase representatives; `pushes`/`pulls` relations contribute
nothing.  The relations are processed in list order, so each adjacency
list holds the dependers in relation order. -/
def phase_edges (rep : Nat → Nat) :
    List (Nat × Nat × relType) → Nat → List Nat
  | [], _ => []
  | (a, b, relType.depends) :: rs, v =>
    (if v = rep b then [rep a] else []) ++ phase_edges rep rs v
  | (_, _, relType.pushes) :: rs, v => phase_edges rep rs v
  | (_, _, relType.pulls) :: rs, v => phase_edges rep rs v

/-- The phase graph built by `graph_traits::calc_phases`. -/
def phasegraph (rep : Nat → Nat) (n : Nat)
    (rels : List (Nat × Nat × relType)) : dgraph :=
  { keys := phase_keys rep n, edges := phase_edges rep rels }

/-- The observable calls of `phase::go`. -/
inductive goEvent where
  | beginE : Nat → goEvent
  | goE : Nat → goEvent
  | endE : Nat → goEvent
deriving DecidableEq

/-- `phase::go`: toposort the phase's segment graph, call `begin()` on
each node in that order, invoke the initiator, then call `end()` on each
node in the same forward order (the second
`for (i = 0; i < order.size(); ++i) order[i]->end();` loop). -/
def go_trace (g : dgraph) (initiator : Nat) : List goEvent :=
  (toposort g).map goEvent.beginE ++
    goEvent.goE initiator :: (toposort g).map goEvent.endE

/-- The segments on which `end()` is called, in call order. -/
def endCalls (tr : List goEvent) : List Nat :=
  tr.filterMap (fun e =>
    match e with
    | goEvent.endE n => some n
    | _ => none)

/-- The `phase` bookkeeping relevant to initiators: the segment list
`m_segments` and the initiator field. -/
structure phaseState where
  segs : List Nat
  initiator : Option Nat

/-- `phase::is_initiator`: in-degree zero under both `pushes` and
`pulls` in the authoritative segment map (the map is abstracted by its
two in-degree functions). -/
def is_initiator (indegPush indegPull : Nat → Nat) (s : Nat) : Bool :=
  indegPush s == 0 && indegPull s == 0

/-- Modelled from the spec: `set_initiator` (declared in the pipelining
headers, which are not among the sources) stores the segment as the
phase's initiator, overwriting any previously stored one; it reports no
error. -/
def set_initiator (p : phaseState) (s : Nat) : phaseState :=
  { p with initiator := some s }

/-- `phase::add`: skip a segment already counted; make it the initiator
if it has in-degree zero; append it to the segment list.  There is no
failure path. -/
def phase_add (indegPush indegPull : Nat → Nat) (p : phaseState) (s : Nat) :
    phaseState :=
  if s ∈ p.segs then p
  else
    let p1 := if is_initiator indegPush indegPull s then set_initiator p s
              else p
    { p1 with segs := p1.segs ++ [s] }

/-- Adding a list of segments to a fresh phase. -/
def phase_addAll (indegPush indegPull : Nat → Nat) (ss : List Nat) :
    phaseState :=
  ss.foldl (phase_add indegPush indegPull) { segs := [], initiator := none }

/-- Well-formedness of a `dfs_traversal` graph: the key list is the key
sequence of a `std::map` (no duplicates) and every adjacency target is
again a key. -/
def WFg (g : dgraph) : Prop :=
  g.keys.Nodup ∧ ∀ u v, v ∈ g.edges u → v ∈ g.keys

/-- One edge of the graph. -/
def edgeStep (g : dgraph) (a b : Nat) : Prop := b ∈ g.edges a

/-- Reachability along edges. -/
def Reach (g : dgraph) : Nat → Nat → Prop :=
  Relation.ReflTransGen (edgeStep g)

/-- No directed cycle through any edge (self-loops included). -/
def Acyclic (g : dgraph) : Prop :=
  ∀ u v, edgeStep g u v → Reach g v u → False

/-- The DFS colouring invariant: every stamped node outside the gray
stack `G` has all its successors stamped, each one either still gray or
carrying a smaller stamp. -/
def BlackInv (g : dgraph) (G : List Nat) (times : Nat → Int) : Prop :=
  ∀ u, u ∈ g.keys → times u ≠ 0 → u ∉ G →
    ∀ v, v ∈ g.edges u → times v ≠ 0 ∧ (v ∈ G ∨ times v < times u)

/-- The number of unvisited keys. -/
def wcount (g : dgraph) (times : Nat → Int) : Nat :=
  (g.keys.filter (fun v => times v == 0)).length

/-- The behaviour of `dfs_from` at a given fuel, as established by the
induction on fuel: new stamps are reachable from the start and nonzero,
old stamps survive, the start gets stamped, the clock advances past all
stamps, the colouring invariant is preserved, and at least one
unvisited key is consumed. -/
def FromSpec (g : dgraph) (fuel : Nat) : Prop :=
  ∀ start time times G p,
    p = dfs_from g fuel start time times →
    wcount g times ≤ fuel →
    start ∈ g.keys →
    times start = 0 →
    0 < time →
    (∀ v, times v ≠ 0 → times v < time) →
    (∀ x, x ∈ G → times x ≠ 0) →
    BlackInv g G times →
    (∀ v, p.1 v ≠ times v →
      times v = 0 ∧ v ∈ g.keys ∧ Reach g start v ∧ p.1 v ≠ 0) ∧
    (∀ v, times v ≠ 0 → p.1 v = times v) ∧
    p.1 start ≠ 0 ∧
    time < p.2 ∧
    (∀ v, p.1 v ≠ 0 → p.1 v < p.2) ∧
    BlackInv g G p.1 ∧
    wcount g p.1 + 1 ≤ wcount g times

end pipelining

end Tpie

namespace Tpie

theorem nlt_total {α : Type} {lt : α → α → Bool} (h : SWO lt) :
    ∀ a b : α, nlt lt a b ∨ nlt lt b a := by
  intro a b
  by_cases hab : lt b a = false
  · exact Or.inl hab
  · refine Or.inr ?_
    by_cases hba : lt a b = false
    · exact hba
    · exfalso
      have h1 : lt b a = true := by
        cases hba' : lt b a with
        | false => exact absurd hba' hab
        | true => rfl
      have h2 : lt a b = true := by
        cases hab' : lt a b with
        | false => exact absurd hab' hba
        | true => rfl
      have := h.2.1 a b a h2 h1
      rw [h.1 a] at this
      exact Bool.false_ne_true this

theorem nlt_trans {α : Type} {lt : α → α → Bool} (h : SWO lt) :
    ∀ a b c : α, nlt lt a b → nlt lt b c → nlt lt a c := by
  intro a b c hab hbc
  exact h.2.2 c b a hbc hab

theorem nlt_of_lt {α : Type} {lt : α → α → Bool} (h : SWO lt) {a b : α}
    (hab : lt a b = true) : nlt lt a b := by
  unfold nlt
  cases hba : lt b a with
  | false => rfl
  | true =>
    exfalso
    have := h.2.1 a b a hab hba
    rw [h.1 a] at this
    exact Bool.false_ne_true this

theorem runSort_perm {α : Type} (lt : α → α → Bool) (l : List α) :
    (runSort lt l).Perm l :=
  List.perm_insertionSort (nlt lt) l

theorem runSort_sorted {α : Type} {lt : α → α → Bool} (h : SWO lt)
    (l : List α) : (runSort lt l).Sorted (nlt lt) := by
  haveI : IsTotal α (nlt lt) := ⟨nlt_total h⟩
  haveI : IsTrans α (nlt lt) := ⟨fun a b c => nlt_trans h a b c⟩
  exact List.sorted_insertionSort (nlt lt) l

namespace serialization_internal_sort

variable {α : Type}

theorem write_of_full {st : serialization_internal_sort α} (h : st.full = true)
    (n : Nat) : write st n = st := by
  cases st
  simp_all [write]

theorem serializeItem_of_full {chunks : α → List Nat}
    {st : serialization_internal_sort α} (h : st.full = true) (x : α) :
    serializeItem chunks st x = st := by
  unfold serializeItem
  induction chunks x generalizing st with
  | nil => rfl
  | cons n ns ih =>
    rw [List.foldl_cons, write_of_full h, ih h]

theorem serializeItem_items (chunks : α → List Nat)
    (st : serialization_internal_sort α) (x : α) :
    (serializeItem chunks st x).items = st.items ∧
    (serializeItem chunks st x).bufSize = st.bufSize := by
  unfold serializeItem
  induction chunks x generalizing st with
  | nil => exact ⟨rfl, rfl⟩
  | cons n ns ih =>
    rw [List.foldl_cons]
    refine ⟨(ih (write st n)).1.trans ?_, (ih (write st n)).2.trans ?_⟩
      <;> unfold write <;> split <;> rfl

theorem entryNorm_fields (st : serialization_internal_sort α) :
    (entryNorm st).items = st.items ∧ (entryNorm st).bufSize = st.bufSize ∧
    (entryNorm st).full = st.full ∧ (entryNorm st).log = st.log := by
  unfold entryNorm
  split <;> exact ⟨rfl, rfl, rfl, rfl⟩

theorem push_of_full {chunks : α → List Nat}
    {st : serialization_internal_sort α} (h : st.full = true) (x : α) :
    (push chunks st x).1.full = true ∧ (push chunks st x).2 = false := by
  have hn : (entryNorm st).full = true := (entryNorm_fields st).2.2.1.trans h
  unfold push
  dsimp only
  split
  · exact ⟨rfl, rfl⟩
  · rw [serializeItem_of_full hn]
    simp [hn]

theorem push_spec (chunks : α → List Nat)
    (st : serialization_internal_sort α) (x : α) :
    ((push chunks st x).2 = false ∧ (push chunks st x).1.full = true ∧
      (push chunks st x).1.items = st.items) ∨
    (push chunks st x).2 = true := by
  unfold push
  dsimp only
  split
  · exact Or.inl ⟨rfl, rfl, (entryNorm_fields st).1⟩
  · split
    next hfull =>
      exact Or.inl ⟨rfl, hfull,
        (serializeItem_items chunks _ x).1.trans (entryNorm_fields st).1⟩
    · exact Or.inr rfl

theorem push_false_full {chunks : α → List Nat}
    {st : serialization_internal_sort α} {x : α}
    (h : (push chunks st x).2 = false) : (push chunks st x).1.full = true := by
  rcases push_spec chunks st x with hs | hs
  · exact hs.2.1
  · rw [hs] at h
    exact absurd h (by simp)

theorem push_false_items {chunks : α → List Nat}
    {st : serialization_internal_sort α} {x : α}
    (h : (push chunks st x).2 = false) :
    (push chunks st x).1.items = st.items := by
  rcases push_spec chunks st x with hs | hs
  · exact hs.2.2
  · rw [hs] at h
    exact absurd h (by simp)

theorem pushSeq_of_full {chunks : α → List Nat}
    {st : serialization_internal_sort α} (h : st.full = true) (xs : List α) :
    (pushSeq chunks st xs).1.full = true ∧
    ∀ b ∈ (pushSeq chunks st xs).2, b = false := by
  induction xs generalizing st with
  | nil => exact ⟨h, by intro b hb; simp [pushSeq] at hb⟩
  | cons x xs ih =>
    have hp : (push chunks st x).1.full = true ∧ (push chunks st x).2 = false :=
      push_of_full h x
    have hrec := ih hp.1
    refine ⟨hrec.1, ?_⟩
    intro b hb
    simp only [pushSeq, List.mem_cons] at hb
    rcases hb with hb | hb
    · rw [hb]
      exact hp.2
    · exact hrec.2 b hb

/-- Offsets journalled by `write` stay within the buffer whose size is
`bufSize`. -/
theorem write_LogOK {st : serialization_internal_sort α} (h : LogOK st)
    (n : Nat) : LogOK (write st n) ∧ (write st n).bufSize = st.bufSize := by
  unfold write
  split
  · exact ⟨h, rfl⟩
  next hc =>
    refine ⟨?_, rfl⟩
    intro p hp
    simp only [List.mem_append, List.mem_singleton] at hp
    rcases hp with hp | hp
    · exact h p hp
    · subst hp
      simp only [Bool.or_eq_true, decide_eq_true_eq, not_or] at hc
      show st.index + n ≤ st.bufSize
      omega

theorem serializeItem_LogOK {chunks : α → List Nat}
    {st : serialization_internal_sort α} (h : LogOK st) (x : α) :
    LogOK (serializeItem chunks st x) ∧
    (serializeItem chunks st x).bufSize = st.bufSize := by
  unfold serializeItem
  induction chunks x generalizing st with
  | nil => exact ⟨h, rfl⟩
  | cons n ns ih =>
    rw [List.foldl_cons]
    have hw := write_LogOK h n
    have := ih hw.1
    exact ⟨this.1, this.2.trans hw.2⟩

theorem entryNorm_LogOK {st : serialization_internal_sort α} (h : LogOK st) :
    LogOK (entryNorm st) := by
  intro p hp
  rw [(entryNorm_fields st).2.1]
  exact h p ((entryNorm_fields st).2.2.2 ▸ hp)

theorem push_LogOK {chunks : α → List Nat}
    {st : serialization_internal_sort α} (h : LogOK st) (x : α) :
    LogOK (push chunks st x).1 ∧ (push chunks st x).1.bufSize = st.bufSize := by
  have h0 : LogOK (entryNorm st) := entryNorm_LogOK h
  have hb := (entryNorm_fields st).2.1
  unfold push
  dsimp only
  split
  · exact ⟨h0, hb⟩
  · have hs : LogOK (serializeItem chunks (entryNorm st) x) ∧
        (serializeItem chunks (entryNorm st) x).bufSize =
          (entryNorm st).bufSize := serializeItem_LogOK h0 x
    split
    · exact ⟨hs.1, hs.2.trans hb⟩
    · exact ⟨hs.1, hs.2.trans hb⟩

theorem applyOps_LogOK (lt : α → α → Bool) (chunks : α → List Nat)
    {st : serialization_internal_sort α} (h : LogOK st) (ops : List (ISOp α)) :
    LogOK (applyOps lt chunks st ops) ∧
    (applyOps lt chunks st ops).bufSize = st.bufSize := by
  induction ops generalizing st with
  | nil => exact ⟨h, rfl⟩
  | cons op ops ih =>
    cases op with
    | pushOp x =>
      have hp : LogOK (push chunks st x).1 ∧
          (push chunks st x).1.bufSize = st.bufSize := push_LogOK h x
      have := ih hp.1
      exact ⟨this.1, this.2.trans hp.2⟩
    | sortOp => exact ih h
    | resetOp => exact ih h

theorem pullAll_sortRecs_perm (lt : α → α → Bool)
    (st : serialization_internal_sort α) :
    (pullAll (sortRecs lt st)).Perm st.items := by
  unfold pullAll sortRecs
  simpa using Tpie.runSort_perm lt st.items


end serialization_internal_sort


/-- **C7.** For the in-memory serialization sorter with byte buffer of
size `M`: once `push` returns false, every subsequent `push` returns false
until `reset()` (or `end()`) is called; no operation of the sorter ever
copies a byte to an offset `≥ M` of the buffer (every journalled write
`(o, n)` satisfies `o + n ≤ M`); and a rejected item is not added to the
records later produced by `sort()`/`pull()` (the record list is unchanged
by a failed `push`, and `sort()` followed by pulling everything yields
exactly a permutation of the accepted records). -/
theorem C7_internal_sorter_invariants {α : Type} (lt : α → α → Bool)
    (chunks : α → List Nat) (M : Nat)
    (st : serialization_internal_sort α) (x : α) (xs : List α)
    (ops : List (serialization_internal_sort.ISOp α))
    (hfalse : (serialization_internal_sort.push chunks st x).2 = false) :
    (∀ b ∈ (serialization_internal_sort.pushSeq chunks
        (serialization_internal_sort.push chunks st x).1 xs).2, b = false) ∧
    (∀ p ∈ (serialization_internal_sort.applyOps lt chunks
        (serialization_internal_sort.beginState M) ops).log,
      p.1 + p.2 ≤ M) ∧
    (serialization_internal_sort.push chunks st x).1.items = st.items ∧
    (serialization_internal_sort.pullAll
        (serialization_internal_sort.sortRecs lt
          (serialization_internal_sort.push chunks st x).1)).Perm
      (st.items) := by
  have hfull := serialization_internal_sort.push_false_full hfalse
  have hlog0 : serialization_internal_sort.LogOK
      (serialization_internal_sort.beginState (α := α) M) := by
    intro p hp
    simp [serialization_internal_sort.beginState] at hp
  have hlog := serialization_internal_sort.applyOps_LogOK lt chunks hlog0 ops
  refine ⟨(serialization_internal_sort.pushSeq_of_full hfull xs).2, ?_, ?_, ?_⟩
  · intro p hp
    have := hlog.1 p hp
    rwa [hlog.2] at this
  · exact serialization_internal_sort.push_false_items hfalse
  · have h1 := serialization_internal_sort.pullAll_sortRecs_perm lt
      (serialization_internal_sort.push chunks st x).1
    rwa [serialization_internal_sort.push_false_items hfalse] at h1

/-- Witness for `C7_internal_sorter_invariants`: a one-byte buffer, items
that serialize to one byte each; the second push is rejected. -/
theorem C7_witness :
    (serialization_internal_sort.push (fun _ : Nat => [1])
      (serialization_internal_sort.push (fun _ : Nat => [1])
        (serialization_internal_sort.beginState 1) 5).1 6).2 = false ∧
    (∀ b ∈ (serialization_internal_sort.pushSeq (fun _ : Nat => [1])
        (serialization_internal_sort.push (fun _ : Nat => [1])
          (serialization_internal_sort.push (fun _ : Nat => [1])
            (serialization_internal_sort.beginState 1) 5).1 6).1
        [7, 8]).2, b = false) ∧
    (serialization_internal_sort.push (fun _ : Nat => [1])
      (serialization_internal_sort.push (fun _ : Nat => [1])
        (serialization_internal_sort.beginState 1) 5).1 6).1.items =
      (serialization_internal_sort.push (fun _ : Nat => [1])
        (serialization_internal_sort.beginState 1) 5).1.items := by
  refine ⟨by decide, ?_, ?_⟩
  · exact (C7_internal_sorter_invariants (fun a b => decide (a < b))
      (fun _ : Nat => [1]) 1 _ 6 [7, 8] [] (by decide)).1
  · exact (C7_internal_sorter_invariants (fun a b => decide (a < b))
      (fun _ : Nat => [1]) 1 _ 6 [7, 8] [] (by decide)).2.2.1

theorem mem_headsOf {α : Type} {runs : List (List α)} {i : Nat} {a : α}
    (h : (i, a) ∈ headsOf runs) : ∃ tl, runs[i]? = some (a :: tl) := by
  unfold headsOf at h
  rw [List.mem_filterMap] at h
  obtain ⟨q, hq, hmap⟩ := h
  rw [Option.map_eq_some'] at hmap
  obtain ⟨b, hb, heq⟩ := hmap
  obtain ⟨h1, h2⟩ := Prod.mk.injEq _ _ _ _ ▸ heq
  rcases q with ⟨j, rn⟩
  cases rn with
  | nil => simp at hb
  | cons c tl =>
    simp only [List.head?_cons, Option.some.injEq] at hb
    refine ⟨tl, ?_⟩
    have := List.mem_enum_iff_getElem?.mp hq
    simp only at h1 h2
    rw [← h1, this, hb, h2]

theorem headsOf_mem {α : Type} {runs : List (List α)} {i : Nat} {a : α}
    {tl : List α} (h : runs[i]? = some (a :: tl)) : (i, a) ∈ headsOf runs := by
  unfold headsOf
  rw [List.mem_filterMap]
  exact ⟨(i, a :: tl), List.mem_enum_iff_getElem?.mpr h, rfl⟩

theorem flatten_of_headsOf_nil {α : Type} {runs : List (List α)}
    (h : headsOf runs = []) : runs.flatten = [] := by
  rw [List.flatten_eq_nil_iff]
  intro l hl
  cases l with
  | nil => rfl
  | cons a tl =>
    obtain ⟨i, hi⟩ := List.mem_iff_getElem?.mp hl
    have := headsOf_mem hi
    rw [h] at this
    simp at this

theorem pickMin_mem {α : Type} {lt : α → α → Bool} :
    ∀ {hs : List (Nat × α)} {m : Nat × α}, pickMin lt hs = some m → m ∈ hs := by
  have key : ∀ (t : List (Nat × α)) (acc : Nat × α),
      t.foldl (fun acc c => if lt c.2 acc.2 then c else acc) acc ∈ acc :: t := by
    intro t
    induction t with
    | nil => intro acc; simp
    | cons c t ih =>
      intro acc
      rw [List.foldl_cons]
      by_cases hc : lt c.2 acc.2
      · rw [if_pos hc]
        rcases List.mem_cons.mp (ih c) with h | h
        · rw [h]; simp
        · simp [h]
      · rw [if_neg hc]
        rcases List.mem_cons.mp (ih acc) with h | h
        · rw [h]; simp
        · simp [h]
  intro hs m h
  cases hs with
  | nil => simp [pickMin] at h
  | cons hd t =>
    simp only [pickMin, Option.some.injEq] at h
    rw [← h]
    exact key t hd

theorem pickMin_min {α : Type} {lt : α → α → Bool} (hswo : SWO lt) :
    ∀ {hs : List (Nat × α)} {m : Nat × α}, pickMin lt hs = some m →
      ∀ e ∈ hs, lt e.2 m.2 = false := by
  have key : ∀ (t : List (Nat × α)) (acc : Nat × α),
      ∀ e ∈ acc :: t,
        lt e.2 (t.foldl (fun acc c => if lt c.2 acc.2 then c else acc) acc).2 =
          false := by
    intro t
    induction t with
    | nil =>
      intro acc e he
      simp only [List.mem_singleton] at he
      rw [he]
      exact hswo.1 _
    | cons c t ih =>
      intro acc e he
      rw [List.foldl_cons]
      by_cases hc : lt c.2 acc.2 = true
      · rw [if_pos hc]
        have hcr := ih c c (List.mem_cons_self c t)
        have hacc : lt acc.2
            (t.foldl (fun acc c => if lt c.2 acc.2 then c else acc) c).2 =
            false := by
          cases hres : lt acc.2
              (t.foldl (fun acc c => if lt c.2 acc.2 then c else acc) c).2 with
          | false => rfl
          | true =>
            exfalso
            have := hswo.2.1 _ _ _ hc hres
            rw [hcr] at this
            exact Bool.false_ne_true this
        rcases List.mem_cons.mp he with heq | he'
        · rw [heq]
          exact hacc
        · exact ih c e he'
      · rw [if_neg hc]
        have hc' : lt c.2 acc.2 = false := by
          cases hcc : lt c.2 acc.2 with
          | false => rfl
          | true => exact absurd hcc hc
        have haccr := ih acc acc (List.mem_cons_self acc t)
        rcases List.mem_cons.mp he with heq | he'
        · rw [heq]
          exact haccr
        · rcases List.mem_cons.mp he' with heq | he''
          · rw [heq]
            exact hswo.2.2 _ _ _ hc' haccr
          · exact ih acc e (List.mem_cons_of_mem acc he'')
  intro hs m h e he
  cases hs with
  | nil => simp [pickMin] at h
  | cons hd t =>
    simp only [pickMin, Option.some.injEq] at h
    rw [← h]
    exact key t hd e he

theorem pickMin_eq_none {α : Type} {lt : α → α → Bool}
    {hs : List (Nat × α)} (h : pickMin lt hs = none) : hs = [] := by
  cases hs with
  | nil => rfl
  | cons hd t => simp [pickMin] at h

theorem flatten_set_perm {α : Type} :
    ∀ (runs : List (List α)) (i : Nat) {a : α} {tl : List α},
      runs[i]? = some (a :: tl) →
      runs.flatten.Perm (a :: (runs.set i tl).flatten) := by
  intro runs
  induction runs with
  | nil => intro i a tl h; simp at h
  | cons rn rest ih =>
    intro i a tl h
    cases i with
    | zero =>
      simp only [List.getElem?_cons_zero, Option.some.injEq] at h
      rw [h]
      simp only [List.set_cons_zero, List.flatten_cons, List.cons_append]
      exact List.Perm.refl _
    | succ i =>
      simp only [List.getElem?_cons_succ] at h
      have hrec := ih i h
      simp only [List.flatten_cons, List.set_cons_succ]
      exact (List.Perm.append_left rn hrec).trans List.perm_middle

theorem lengthSum_set {α : Type} :
    ∀ (runs : List (List α)) (i : Nat) {a : α} {tl : List α},
      runs[i]? = some (a :: tl) →
      ((runs.set i tl).map List.length).sum + 1 = (runs.map List.length).sum := by
  intro runs
  induction runs with
  | nil => intro i a tl h; simp at h
  | cons rn rest ih =>
    intro i a tl h
    cases i with
    | zero =>
      simp only [List.getElem?_cons_zero, Option.some.injEq] at h
      rw [h]
      simp only [List.set_cons_zero, List.map_cons, List.sum_cons,
        List.length_cons]
      omega
    | succ i =>
      simp only [List.getElem?_cons_succ] at h
      have hrec := ih i h
      simp only [List.set_cons_succ, List.map_cons, List.sum_cons]
      omega

theorem kmergeF_perm {α : Type} (lt : α → α → Bool) :
    ∀ (fuel : Nat) (runs : List (List α)),
      (runs.map List.length).sum ≤ fuel →
      (kmergeF lt fuel runs).Perm runs.flatten := by
  intro fuel
  induction fuel with
  | zero =>
    intro runs h
    have : runs.flatten = [] := by
      rw [List.flatten_eq_nil_iff]
      intro l hl
      have := List.mem_map_of_mem List.length hl
      have h0 : l.length = 0 := by
        by_contra hne
        have := List.single_le_sum (by intro x _; exact Nat.zero_le x) _ this
        omega
      exact List.length_eq_zero.mp h0
    rw [this]
    exact List.Perm.refl _
  | succ fuel ih =>
    intro runs h
    cases hm : pickMin lt (headsOf runs) with
    | none =>
      have hstep : kmergeF lt (fuel + 1) runs = [] := by
        simp only [kmergeF]
        rw [hm]
      rw [hstep, flatten_of_headsOf_nil (pickMin_eq_none hm)]
    | some m =>
      rcases m with ⟨i, a⟩
      obtain ⟨tl, htl⟩ := mem_headsOf (pickMin_mem hm)
      have hgd : runs.getD i [] = a :: tl := by
        rw [List.getD_eq_getElem?_getD, htl]
        rfl
      have hstep : kmergeF lt (fuel + 1) runs =
          a :: kmergeF lt fuel (runs.set i (runs.getD i []).tail) := by
        simp only [kmergeF]
        rw [hm]
      rw [hstep, hgd, List.tail_cons]
      have hsum := lengthSum_set runs i htl
      have hrec := ih (runs.set i tl) (by omega)
      exact (List.Perm.cons a hrec).trans (flatten_set_perm runs i htl).symm

theorem sorted_head_le {α : Type} {lt : α → α → Bool} (hswo : SWO lt)
    {b : α} {rest : List α} (h : (b :: rest).Sorted (nlt lt)) :
    ∀ y ∈ b :: rest, lt y b = false := by
  intro y hy
  rcases List.mem_cons.mp hy with rfl | hy'
  · exact hswo.1 y
  · exact (List.sorted_cons.mp h).1 y hy'

theorem kmergeF_sorted {α : Type} {lt : α → α → Bool} (hswo : SWO lt) :
    ∀ (fuel : Nat) (runs : List (List α)),
      (runs.map List.length).sum ≤ fuel →
      (∀ rn ∈ runs, rn.Sorted (nlt lt)) →
      (kmergeF lt fuel runs).Sorted (nlt lt) := by
  intro fuel
  induction fuel with
  | zero => intro runs _ _; exact List.sorted_nil
  | succ fuel ih =>
    intro runs h hs
    cases hm : pickMin lt (headsOf runs) with
    | none =>
      have hstep : kmergeF lt (fuel + 1) runs = [] := by
        simp only [kmergeF]
        rw [hm]
      rw [hstep]
      exact List.sorted_nil
    | some m =>
      rcases m with ⟨i, a⟩
      obtain ⟨tl, htl⟩ := mem_headsOf (pickMin_mem hm)
      have hgd : runs.getD i [] = a :: tl := by
        rw [List.getD_eq_getElem?_getD, htl]
        rfl
      have hstep : kmergeF lt (fuel + 1) runs =
          a :: kmergeF lt fuel (runs.set i (runs.getD i []).tail) := by
        simp only [kmergeF]
        rw [hm]
      rw [hstep, hgd, List.tail_cons]
      have hmem_i : (a :: tl) ∈ runs := by
        obtain ⟨hlt, hget⟩ := List.getElem?_eq_some_iff.mp htl
        exact hget ▸ List.getElem_mem hlt
      have hsorted_i : (a :: tl).Sorted (nlt lt) := hs _ hmem_i
      have hsum := lengthSum_set runs i htl
      have hs' : ∀ rn ∈ runs.set i tl, rn.Sorted (nlt lt) := by
        intro rn hrn
        rcases List.mem_or_eq_of_mem_set hrn with hrn' | rfl
        · exact hs rn hrn'
        · exact (List.sorted_cons.mp hsorted_i).2
      rw [List.sorted_cons]
      refine ⟨?_, ih (runs.set i tl) (by omega) hs'⟩
      intro y hy
      have hyf : y ∈ (runs.set i tl).flatten :=
        (kmergeF_perm lt fuel (runs.set i tl) (by omega)).mem_iff.mp hy
      obtain ⟨rn, hrn, hyrn⟩ := List.mem_flatten.mp hyf
      rcases List.mem_or_eq_of_mem_set hrn with hrn' | rfl
      · -- y lies in one of the old runs; its head is in the queue, hence ≥ a
        cases rn with
        | nil => simp at hyrn
        | cons b rest =>
          obtain ⟨j, hj⟩ := List.mem_iff_getElem?.mp hrn'
          have hjb : (j, b) ∈ headsOf runs := headsOf_mem hj
          have hba : lt b a = false := pickMin_min hswo hm (j, b) hjb
          have hyb : lt y b = false :=
            sorted_head_le hswo (hs _ hrn') y hyrn
          exact hswo.2.2 y b a hyb hba
      · -- y lies in the tail of the selected run
        exact (List.sorted_cons.mp hsorted_i).1 y hyrn

theorem kmerge_perm {α : Type} (lt : α → α → Bool) (runs : List (List α)) :
    (kmerge lt runs).Perm runs.flatten :=
  kmergeF_perm lt _ runs (Nat.le_refl _)

theorem kmerge_sorted {α : Type} {lt : α → α → Bool} (hswo : SWO lt)
    (runs : List (List α)) (hs : ∀ rn ∈ runs, rn.Sorted (nlt lt)) :
    (kmerge lt runs).Sorted (nlt lt) :=
  kmergeF_sorted hswo _ runs (Nat.le_refl _) hs

namespace serialization_internal_sort

variable {α : Type}

theorem write_success {st : serialization_internal_sort α} {n : Nat}
    (hfull : st.full = false) (h : st.index + n ≤ st.bufSize) :
    write st n =
      { st with index := st.index + n, log := st.log ++ [(st.index, n)] } := by
  unfold write
  have hc : (st.full || decide (st.bufSize < st.index + n)) = false := by
    rw [hfull, Bool.false_or, decide_eq_false_iff_not]
    omega
  rw [hc]
  simp

theorem foldl_write_of_full :
    ∀ (ns : List Nat) (st : serialization_internal_sort α),
      st.full = true → ns.foldl write st = st := by
  intro ns
  induction ns with
  | nil => intro st _; rfl
  | cons n ns ih =>
    intro st h
    rw [List.foldl_cons, write_of_full h, ih st h]

theorem foldl_write_success :
    ∀ (ns : List Nat) (st : serialization_internal_sort α),
      st.full = false → st.index + ns.sum ≤ st.bufSize →
      (ns.foldl write st).full = false ∧
      (ns.foldl write st).index = st.index + ns.sum ∧
      (ns.foldl write st).items = st.items ∧
      (ns.foldl write st).largestItem = st.largestItem ∧
      (ns.foldl write st).bufSize = st.bufSize := by
  intro ns
  induction ns with
  | nil =>
    intro st h1 h2
    exact ⟨h1, by simp, rfl, rfl, rfl⟩
  | cons n ns ih =>
    intro st h1 h2
    rw [List.foldl_cons]
    simp only [List.sum_cons] at h2
    have hn : st.index + n ≤ st.bufSize := by omega
    rw [write_success h1 hn]
    obtain ⟨f1, f2, f3, f4, f5⟩ := ih
      { st with index := st.index + n, log := st.log ++ [(st.index, n)] }
      h1 (by show st.index + n + ns.sum ≤ st.bufSize; omega)
    refine ⟨f1, ?_, f3, f4, f5⟩
    rw [f2]
    show st.index + n + ns.sum = st.index + (n + ns.sum)
    omega

theorem foldl_write_fail :
    ∀ (ns : List Nat) (st : serialization_internal_sort α),
      st.full = false → st.index ≤ st.bufSize →
      st.bufSize < st.index + ns.sum →
      (ns.foldl write st).full = true := by
  intro ns
  induction ns with
  | nil =>
    intro st h1 h2 h3
    simp only [List.sum_nil, Nat.add_zero] at h3
    omega
  | cons n ns ih =>
    intro st h1 h2 h3
    rw [List.foldl_cons]
    simp only [List.sum_cons] at h3
    by_cases hn : st.index + n ≤ st.bufSize
    · rw [write_success h1 hn]
      exact ih _ h1 (by show st.index + n ≤ st.bufSize; omega)
        (by show st.bufSize < st.index + n + ns.sum; omega)
    · have hw : write st n = { st with full := true } := by
        unfold write
        have hc : (st.full || decide (st.bufSize < st.index + n)) = true := by
          rw [h1, Bool.false_or, decide_eq_true_eq]
          omega
        rw [hc]
        simp
      rw [hw]
      have hf : ({ st with full := true } :
          serialization_internal_sort α).full = true := rfl
      rw [foldl_write_of_full ns _ hf]

theorem entryNorm_eq_self {st : serialization_internal_sort α}
    (h : st.items = [] → st.index = 0) : entryNorm st = st := by
  unfold entryNorm
  split
  next hlen =>
    have h0 := h (List.length_eq_zero.mp hlen)
    cases st
    simp_all
  · rfl

theorem ipush_success {chunks : α → List Nat}
    {st : serialization_internal_sort α} {x : α}
    (hen : entryNorm st = st) (hfull : st.full = false)
    (hlt : st.index < st.bufSize)
    (hfit : st.index + (chunks x).sum ≤ st.bufSize) :
    (push chunks st x).2 = true ∧
    (push chunks st x).1.items = st.items ++ [x] ∧
    (push chunks st x).1.index = st.index + (chunks x).sum ∧
    (push chunks st x).1.full = false ∧
    (push chunks st x).1.largestItem = max st.largestItem (chunks x).sum ∧
    (push chunks st x).1.bufSize = st.bufSize := by
  unfold push
  dsimp only
  rw [hen, if_neg (by omega)]
  obtain ⟨f1, f2, f3, f4, f5⟩ := foldl_write_success (chunks x) st hfull hfit
  have hser : serializeItem chunks st x = (chunks x).foldl write st := rfl
  rw [if_neg (by rw [hser, f1]; simp)]
  rw [hser]
  refine ⟨rfl, by rw [f3], by rw [f2], f1, ?_, f5⟩
  show max ((chunks x).foldl write st).largestItem
      (((chunks x).foldl write st).index - st.index) =
    max st.largestItem (chunks x).sum
  rw [f4, f2]
  omega

theorem ipush_fail {chunks : α → List Nat}
    {st : serialization_internal_sort α} {x : α}
    (hen : entryNorm st = st) (hfull : st.full = false)
    (hle : st.index ≤ st.bufSize)
    (hbad : st.bufSize ≤ st.index ∨
      st.bufSize < st.index + (chunks x).sum) :
    (push chunks st x).2 = false := by
  unfold push
  dsimp only
  rw [hen]
  by_cases h1 : st.bufSize ≤ st.index
  · rw [if_pos h1]
  · rw [if_neg h1]
    have hfail : (serializeItem chunks st x).full = true := by
      have hser : serializeItem chunks st x = (chunks x).foldl write st := rfl
      rw [hser]
      exact foldl_write_fail (chunks x) st hfull hle
        (by rcases hbad with h | h <;> omega)
    rw [if_pos hfail]

theorem push_bufSize (chunks : α → List Nat)
    (st : serialization_internal_sort α) (x : α) :
    (push chunks st x).1.bufSize = st.bufSize := by
  unfold push
  dsimp only
  have hb := (entryNorm_fields st).2.1
  split
  · exact hb
  · have hs := (serializeItem_items chunks (entryNorm st) x).2
    split
    · exact hs.trans hb
    · exact hs.trans hb

theorem push_false_fields {chunks : α → List Nat}
    {st : serialization_internal_sort α} {x : α}
    (h : (push chunks st x).2 = false) :
    (push chunks st x).1.items = st.items ∧
    (push chunks st x).1.largestItem = st.largestItem := by
  refine ⟨push_false_items h, ?_⟩
  unfold push at h ⊢
  dsimp only at h ⊢
  have hL : (entryNorm st).largestItem = st.largestItem := by
    unfold entryNorm
    split <;> rfl
  split at h
  next hc =>
    rw [if_pos hc]
    exact hL
  next hc =>
    rw [if_neg hc]
    split at h
    next hfl =>
      rw [if_pos hfl]
      have : ∀ (ns : List Nat) (s0 : serialization_internal_sort α),
          (ns.foldl write s0).largestItem = s0.largestItem := by
        intro ns
        induction ns with
        | nil => intro s0; rfl
        | cons n ns ih =>
          intro s0
          rw [List.foldl_cons]
          rw [ih (write s0 n)]
          unfold write
          split <;> rfl
      exact (this (chunks x) (entryNorm st)).trans hL
    · simp at h

end serialization_internal_sort

namespace serialization_sort

variable {α : Type}

theorem groupsOf_flatten_aux {β : Type} (f : Nat) :
    ∀ (n : Nat) (l : List β), l.length ≤ n → (groupsOf f l).flatten = l := by
  intro n
  induction n with
  | zero =>
    intro l h
    rw [List.length_eq_zero.mp (Nat.le_zero.mp h)]
    simp [groupsOf]
  | succ n ih =>
    intro l h
    cases l with
    | nil => simp [groupsOf]
    | cons x xs =>
      simp only [groupsOf, List.flatten_cons]
      rw [ih (xs.drop (f - 1)) (by simp only [List.length_drop]; simp at h; omega)]
      rw [List.cons_append, List.take_append_drop]

theorem groupsOf_flatten {β : Type} (f : Nat) (l : List β) :
    (groupsOf f l).flatten = l :=
  groupsOf_flatten_aux f l.length l (Nat.le_refl _)

theorem groupsOf_group_bound {β : Type} {f : Nat} (hf : 1 ≤ f) :
    ∀ (n : Nat) (l : List β), l.length ≤ n →
      ∀ g ∈ groupsOf f l, g.length ≤ f ∧ g ≠ [] := by
  intro n
  induction n with
  | zero =>
    intro l h g hg
    rw [List.length_eq_zero.mp (Nat.le_zero.mp h)] at hg
    simp [groupsOf] at hg
  | succ n ih =>
    intro l h g hg
    cases l with
    | nil => simp [groupsOf] at hg
    | cons x xs =>
      simp only [groupsOf, List.mem_cons] at hg
      rcases hg with rfl | hg
      · constructor
        · simp only [List.length_cons, List.length_take]
          omega
        · simp
      · exact ih (xs.drop (f - 1))
          (by simp only [List.length_drop]; simp at h; omega) g hg

theorem groupsOf_length_le {β : Type} (f : Nat) :
    ∀ (n : Nat) (l : List β), l.length ≤ n →
      (groupsOf f l).length ≤ l.length := by
  intro n
  induction n with
  | zero =>
    intro l h
    rw [List.length_eq_zero.mp (Nat.le_zero.mp h)]
    simp [groupsOf]
  | succ n ih =>
    intro l h
    cases l with
    | nil => simp [groupsOf]
    | cons x xs =>
      simp only [groupsOf, List.length_cons]
      have := ih (xs.drop (f - 1))
        (by simp only [List.length_drop]; simp at h; omega)
      simp only [List.length_drop] at this
      omega

theorem groupsOf_length_lt {β : Type} {f : Nat} (hf : 2 ≤ f) (l : List β)
    (hl : 2 ≤ l.length) : (groupsOf f l).length < l.length := by
  cases l with
  | nil => simp at hl
  | cons x xs =>
    simp only [groupsOf, List.length_cons]
    have h1 := groupsOf_length_le f (xs.drop (f - 1)).length (xs.drop (f - 1))
      (Nat.le_refl _)
    simp only [List.length_drop] at h1
    simp only [List.length_cons] at hl
    omega

theorem groupsOf_mem_of_mem_group {β : Type} {f : Nat} {l : List β}
    {g : List β} (hg : g ∈ groupsOf f l) : ∀ y ∈ g, y ∈ l := by
  intro y hy
  rw [← groupsOf_flatten f l]
  exact List.mem_flatten.mpr ⟨g, hg, hy⟩

theorem mergePass_flatten_perm {lt : α → α → Bool} (f : Nat)
    (runs : List (List α)) :
    (mergePass lt f runs).flatten.Perm runs.flatten := by
  have key : ∀ gs : List (List (List α)),
      ((gs.map (kmerge lt)).flatten).Perm gs.flatten.flatten := by
    intro gs
    induction gs with
    | nil => exact List.Perm.refl _
    | cons g gs ih =>
      simp only [List.map_cons, List.flatten_cons, List.flatten_append]
      exact (kmerge_perm lt g).append ih
  have h := key (groupsOf f runs)
  rwa [groupsOf_flatten f runs] at h

theorem mergePass_sorted {lt : α → α → Bool} (hswo : SWO lt) (f : Nat)
    {runs : List (List α)} (hs : ∀ rn ∈ runs, rn.Sorted (nlt lt)) :
    ∀ rn ∈ mergePass lt f runs, rn.Sorted (nlt lt) := by
  intro rn hrn
  obtain ⟨g, hg, rfl⟩ := List.mem_map.mp hrn
  exact kmerge_sorted hswo g
    (fun q hq => hs q (groupsOf_mem_of_mem_group hg q hq))

theorem mergePass_ne_nil {lt : α → α → Bool} {f : Nat}
    {runs : List (List α)} (h : runs ≠ []) : mergePass lt f runs ≠ [] := by
  cases runs with
  | nil => exact absurd rfl h
  | cons x xs => simp [mergePass, groupsOf]

theorem mergeAll_spec {lt : α → α → Bool} (hswo : SWO lt) {f : Nat}
    (hf : 2 ≤ f) :
    ∀ (fuel : Nat) (runs : List (List α)), runs.length ≤ fuel →
      (∀ rn ∈ runs, rn.Sorted (nlt lt)) →
      ((mergeAll lt f fuel runs).flatten.Perm runs.flatten) ∧
      (∀ rn ∈ mergeAll lt f fuel runs, rn.Sorted (nlt lt)) ∧
      (runs ≠ [] → (mergeAll lt f fuel runs).length = 1) := by
  intro fuel
  induction fuel with
  | zero =>
    intro runs h hs
    have : runs = [] := List.length_eq_zero.mp (Nat.le_zero.mp h)
    subst this
    exact ⟨List.Perm.refl _, hs, fun hne => absurd rfl hne⟩
  | succ fuel ih =>
    intro runs h hs
    by_cases h1 : runs.length ≤ 1
    · have hstep : mergeAll lt f (fuel + 1) runs = runs := by
        simp only [mergeAll]
        rw [if_pos h1]
      rw [hstep]
      refine ⟨List.Perm.refl _, hs, ?_⟩
      intro hne
      have : 0 < runs.length := List.length_pos.mpr hne
      omega
    · have hstep : mergeAll lt f (fuel + 1) runs =
          mergeAll lt f fuel (mergePass lt f runs) := by
        simp only [mergeAll]
        rw [if_neg h1]
      rw [hstep]
      have hlt := groupsOf_length_lt hf runs (by omega)
      have hlen : (mergePass lt f runs).length ≤ fuel := by
        simp only [mergePass, List.length_map]
        omega
      obtain ⟨hp, hsrt, hone⟩ :=
        ih (mergePass lt f runs) hlen (mergePass_sorted hswo f hs)
      refine ⟨hp.trans (mergePass_flatten_perm f runs), hsrt, ?_⟩
      intro hne
      exact hone (mergePass_ne_nil (by intro hc; rw [hc] at h1; simp at h1))

theorem maxSz_append_singleton (chunks : α → List Nat) (v : List α) (x : α) :
    maxSz chunks (v ++ [x]) = max (maxSz chunks v) (sz chunks x) := by
  unfold maxSz
  induction v with
  | nil => simp
  | cons y v ih =>
    simp only [List.cons_append, List.foldr_cons]
    rw [ih]
    omega

theorem maxSz_ge_mem {chunks : α → List Nat} {v : List α} {y : α}
    (h : y ∈ v) : sz chunks y ≤ maxSz chunks v := by
  unfold maxSz
  induction v with
  | nil => simp at h
  | cons z v ih =>
    simp only [List.foldr_cons]
    rcases List.mem_cons.mp h with rfl | h'
    · omega
    · have := ih h'
      omega

theorem exists_pos_of_sum_pos {l : List Nat} (h : 0 < l.sum) :
    ∃ y ∈ l, 0 < y := by
  by_contra hc
  push_neg at hc
  have h0 : l.sum = 0 :=
    List.sum_eq_zero (fun y hy => Nat.le_zero.mp (hc y hy))
  omega

theorem end_run_of_ne {lt : α → α → Bool} {s : serialization_sort α}
    (h : s.sorter.items ≠ []) :
    end_run lt s =
      { sorter := (s.sorter.sortRecs lt).reset,
        runs := s.runs ++ [Tpie.runSort lt s.sorter.items] } := by
  unfold end_run
  dsimp only
  have hlen : (Tpie.runSort lt s.sorter.items).length = s.sorter.items.length :=
    (runSort_perm lt s.sorter.items).length_eq
  have hcr : (s.sorter.sortRecs lt).canRead = true := by
    unfold serialization_internal_sort.canRead
      serialization_internal_sort.sortRecs
    simp only [decide_eq_true_eq]
    rw [hlen]
    exact List.length_pos.mpr h
  rw [if_neg (by rw [hcr]; simp)]
  show ({ sorter := (s.sorter.sortRecs lt).reset,
          runs := s.runs ++ [(s.sorter.sortRecs lt).pullAll] } :
      serialization_sort α) = _
  have hpa : (s.sorter.sortRecs lt).pullAll = Tpie.runSort lt s.sorter.items := by
    unfold serialization_internal_sort.pullAll
      serialization_internal_sort.sortRecs
    simp
  rw [hpa]

theorem end_run_of_nil {lt : α → α → Bool} {s : serialization_sort α}
    (h : s.sorter.items = []) :
    end_run lt s = { s with sorter := s.sorter.sortRecs lt } := by
  unfold end_run
  dsimp only
  have hcr : (s.sorter.sortRecs lt).canRead = false := by
    unfold serialization_internal_sort.canRead
      serialization_internal_sort.sortRecs
    simp only [decide_eq_false_iff_not]
    rw [(runSort_perm lt s.sorter.items).length_eq, h]
    simp
  rw [if_pos (by rw [hcr])]

theorem push_RF {lt : α → α → Bool} {chunks : α → List Nat} {M : Nat}
    {v : List α} {x : α} {s : serialization_sort α}
    (hswo : SWO lt) (hM : 0 < M) (hszx : sz chunks x ≤ M)
    (hrf : RF lt chunks M v s) :
    ∃ s', push lt chunks s x = some s' ∧ RF lt chunks M (v ++ [x]) s' := by
  obtain ⟨hbuf, hfull, hidx, hile, hlarge, hperm, hruns, hdisj⟩ := hrf
  have hen : serialization_internal_sort.entryNorm s.sorter = s.sorter :=
    serialization_internal_sort.entryNorm_eq_self (by
      intro hnil
      rw [hidx, hnil]
      rfl)
  by_cases hfit : s.sorter.index < s.sorter.bufSize ∧
      s.sorter.index + (chunks x).sum ≤ s.sorter.bufSize
  · obtain ⟨ht, hitems, hindex, hfl, hlg, hbs⟩ :=
      serialization_internal_sort.ipush_success hen hfull hfit.1 hfit.2
    rcases hp : s.sorter.push chunks x with ⟨st1, b⟩
    rw [hp] at ht hitems hindex hfl hlg hbs
    dsimp only at ht hitems hindex hfl hlg hbs
    subst ht
    refine ⟨{ s with sorter := st1 }, ?_, ?_⟩
    · unfold push
      rw [hp]
    · refine ⟨hbs.trans hbuf, hfl, ?_, ?_, ?_, ?_, hruns, ?_⟩
      · rw [hindex, hitems, hidx]
        simp [sz]
      · rw [hindex, ← hbuf]
        exact hfit.2
      · rw [hlg, hlarge, maxSz_append_singleton]
        rfl
      · show (s.runs.flatten ++ st1.items).Perm (v ++ [x])
        rw [hitems, ← List.append_assoc]
        exact hperm.append (List.Perm.refl [x])
      · rcases hdisj with hd | hd
        · exact Or.inl hd
        · refine Or.inr ?_
          rw [hlg]
          omega
  · -- the in-memory push fails: flush the run and retry
    have hbad : s.sorter.bufSize ≤ s.sorter.index ∨
        s.sorter.bufSize < s.sorter.index + (chunks x).sum := by
      by_cases h1 : s.sorter.bufSize ≤ s.sorter.index
      · exact Or.inl h1
      · refine Or.inr ?_
        by_contra h2
        exact hfit ⟨by omega, by omega⟩
    have hfalse := serialization_internal_sort.ipush_fail
      hen hfull (hbuf ▸ hile) hbad
    have hpos : 0 < s.sorter.index := by
      rcases hbad with h1 | h1
      · omega
      · rw [hbuf] at h1
        unfold sz at hszx
        omega
    have hitemsne : s.sorter.items ≠ [] := by
      intro hc
      rw [hidx, hc] at hpos
      simp at hpos
    rcases hp : s.sorter.push chunks x with ⟨st1, b⟩
    have hb : b = false := by
      rw [hp] at hfalse
      exact hfalse
    subst hb
    have hff : (serialization_internal_sort.push chunks s.sorter x).1.items =
          s.sorter.items ∧
        (serialization_internal_sort.push chunks s.sorter x).1.largestItem =
          s.sorter.largestItem :=
      serialization_internal_sort.push_false_fields (by rw [hp])
    have hbs1 := serialization_internal_sort.push_bufSize chunks s.sorter x
    rw [hp] at hff hbs1
    dsimp only at hff hbs1
    obtain ⟨hitems1, hlarge1⟩ := hff
    have hne1 : ({ s with sorter := st1 } :
        serialization_sort α).sorter.items ≠ [] := by
      show st1.items ≠ []
      rw [hitems1]
      exact hitemsne
    have he := @end_run_of_ne α lt _ hne1
    -- the state after end_run
    have hs1sorter : ((st1.sortRecs lt).reset : serialization_internal_sort α) =
        { bufSize := st1.bufSize, index := 0, items := [],
          largestItem := st1.largestItem, itemsRead := 0, full := false,
          log := st1.log } := rfl
    set s1 : serialization_sort α :=
      { sorter := (st1.sortRecs lt).reset,
        runs := s.runs ++ [Tpie.runSort lt st1.items] } with hs1def
    have hen1 : serialization_internal_sort.entryNorm s1.sorter = s1.sorter :=
      serialization_internal_sort.entryNorm_eq_self (fun _ => rfl)
    have hfull1 : s1.sorter.full = false := rfl
    have hbuf1 : s1.sorter.bufSize = M := by
      show st1.bufSize = M
      rw [hbs1, hbuf]
    have hlt1 : s1.sorter.index < s1.sorter.bufSize := by
      show (0 : Nat) < st1.bufSize
      rw [hbs1, hbuf]
      exact hM
    have hfit1 : s1.sorter.index + (chunks x).sum ≤ s1.sorter.bufSize := by
      show 0 + (chunks x).sum ≤ st1.bufSize
      rw [hbs1, hbuf]
      unfold sz at hszx
      omega
    obtain ⟨ht2, hitems2, hindex2, hfl2, hlg2, hbs2⟩ :=
      serialization_internal_sort.ipush_success hen1 hfull1 hlt1 hfit1
    rcases hp2 : s1.sorter.push chunks x with ⟨st2, b2⟩
    rw [hp2] at ht2 hitems2 hindex2 hfl2 hlg2 hbs2
    dsimp only at ht2 hitems2 hindex2 hfl2 hlg2 hbs2
    subst ht2
    have hpush : push lt chunks s x = some { s1 with sorter := st2 } := by
      unfold push
      rw [hp]
      dsimp only
      rw [he, hp2]
    -- the largest item size seen so far is positive
    have hmaxpos : 0 < maxSz chunks v := by
      rw [hidx] at hpos
      obtain ⟨q, hq, hqpos⟩ := exists_pos_of_sum_pos hpos
      obtain ⟨y, hy, rfl⟩ := List.mem_map.mp hq
      have hyv : y ∈ v := hperm.mem_iff.mp
        (List.mem_append.mpr (Or.inr hy))
      have := @maxSz_ge_mem α chunks _ _ hyv
      omega
    refine ⟨{ s1 with sorter := st2 }, hpush, ?_⟩
    refine ⟨hbs2.trans hbuf1, hfl2, ?_, ?_, ?_, ?_, ?_, ?_⟩
    · rw [hindex2, hitems2]
      show (0 : Nat) + (chunks x).sum =
        ((([] : List α) ++ [x]).map (sz chunks)).sum
      simp [sz]
    · rw [hindex2, ← hbuf1]
      exact hfit1
    · rw [hlg2, maxSz_append_singleton]
      show max s1.sorter.largestItem (chunks x).sum = _
      have : s1.sorter.largestItem = maxSz chunks v := by
        show st1.largestItem = maxSz chunks v
        rw [hlarge1, hlarge]
      rw [this]
      rfl
    · show (s1.runs.flatten ++ st2.items).Perm (v ++ [x])
      rw [hitems2]
      show ((s.runs ++ [Tpie.runSort lt st1.items]).flatten ++
        ([] ++ [x])).Perm (v ++ [x])
      rw [List.flatten_append]
      simp only [List.flatten_cons, List.flatten_nil, List.append_nil,
        List.nil_append]
      refine List.Perm.append ?_ (List.Perm.refl [x])
      rw [hitems1]
      exact ((List.Perm.refl s.runs.flatten).append
        (runSort_perm lt s.sorter.items)).trans hperm
    · intro rn hrn
      rcases List.mem_append.mp hrn with hrn' | hrn'
      · exact hruns rn hrn'
      · simp only [List.mem_singleton] at hrn'
        subst hrn'
        refine ⟨by rw [hitems1]; exact runSort_sorted hswo _, ?_⟩
        rw [hitems1]
        intro hc
        have := (runSort_perm lt s.sorter.items).length_eq
        rw [hc] at this
        simp only [List.length_nil] at this
        exact hitemsne (List.length_eq_zero.mp this.symm)
    · refine Or.inr ?_
      rw [hlg2]
      show 0 < max s1.sorter.largestItem (chunks x).sum
      have : s1.sorter.largestItem = maxSz chunks v := by
        show st1.largestItem = maxSz chunks v
        rw [hlarge1, hlarge]
      rw [this]
      omega

theorem beginSort_RF (lt : α → α → Bool) (chunks : α → List Nat) (M : Nat) :
    RF lt chunks M [] (beginSort (α := α) M) := by
  refine ⟨rfl, rfl, rfl, Nat.zero_le M, rfl, ?_, ?_, Or.inl rfl⟩
  · exact List.Perm.refl []
  · intro rn hrn
    simp [beginSort] at hrn

theorem foldlM_push_RF {lt : α → α → Bool} {chunks : α → List Nat} {M : Nat}
    (hswo : SWO lt) (hM : 0 < M) :
    ∀ (v u : List α) (s : serialization_sort α),
      (∀ x ∈ v, sz chunks x ≤ M) → RF lt chunks M u s →
      ∃ s', v.foldlM (fun s x => push lt chunks s x) s = some s' ∧
        RF lt chunks M (u ++ v) s' := by
  intro v
  induction v with
  | nil =>
    intro u s _ hrf
    exact ⟨s, rfl, by simpa using hrf⟩
  | cons x xs ih =>
    intro u s hsz hrf
    obtain ⟨s1, hps, hrf1⟩ := push_RF hswo hM (hsz x (by simp)) hrf
    obtain ⟨s', hfold, hrf'⟩ := ih (u ++ [x]) s1
      (fun y hy => hsz y (by simp [hy])) hrf1
    refine ⟨s', ?_, by simpa [List.append_assoc] using hrf'⟩
    rw [List.foldlM_cons, hps]
    exact hfold

theorem end_run_facts {lt : α → α → Bool} {chunks : α → List Nat} {M : Nat}
    {v : List α} {s : serialization_sort α}
    (hswo : SWO lt) (hrf : RF lt chunks M v s) :
    ((end_run lt s).runs.flatten).Perm v ∧
    (∀ rn ∈ (end_run lt s).runs, rn.Sorted (nlt lt)) ∧
    (end_run lt s).sorter.largestItem = maxSz chunks v ∧
    (maxSz chunks v = 0 → (end_run lt s).runs.length ≤ 1) := by
  obtain ⟨hbuf, hfull, hidx, hile, hlarge, hperm, hruns, hdisj⟩ := hrf
  by_cases h : s.sorter.items = []
  · rw [end_run_of_nil h]
    refine ⟨?_, fun rn hrn => (hruns rn hrn).1, hlarge, ?_⟩
    · show s.runs.flatten.Perm v
      have := hperm
      rw [h, List.append_nil] at this
      exact this
    · intro h0
      show s.runs.length ≤ 1
      rcases hdisj with hd | hd
      · rw [hd]
        simp
      · rw [hlarge, h0] at hd
        omega
  · rw [end_run_of_ne h]
    refine ⟨?_, ?_, hlarge, ?_⟩
    · show ((s.runs ++ [Tpie.runSort lt s.sorter.items]).flatten).Perm v
      rw [List.flatten_append]
      simp only [List.flatten_cons, List.flatten_nil, List.append_nil]
      exact ((List.Perm.refl s.runs.flatten).append
        (runSort_perm lt s.sorter.items)).trans hperm
    · intro rn hrn
      rcases List.mem_append.mp hrn with hrn' | hrn'
      · exact (hruns rn hrn').1
      · simp only [List.mem_singleton] at hrn'
        subst hrn'
        exact runSort_sorted hswo _
    · intro h0
      show (s.runs ++ [Tpie.runSort lt s.sorter.items]).length ≤ 1
      rcases hdisj with hd | hd
      · rw [hd]
        simp
      · rw [hlarge, h0] at hd
        omega

theorem reset_largestItem (st : serialization_internal_sort α) :
    st.reset.largestItem = st.largestItem := rfl

theorem pullOutput_cons {s : serialization_sort α} {r0 : List α}
    {rest : List (List α)} (h : s.runs = r0 :: rest) :
    pullOutput s = some r0 := by
  unfold pullOutput
  rw [h]

theorem endSort_pull {lt : α → α → Bool} {chunks : α → List Nat} {M : Nat}
    {memAvail w r : Nat} {v : List α} {s : serialization_sort α}
    (hswo : SWO lt) (hrf : RF lt chunks M v s) (hv : v ≠ [])
    (hmerge : maxSz chunks v = 0 ∨
      (w < memAvail ∧ 2 ≤ (memAvail - w) / (maxSz chunks v + r))) :
    ∃ out, (endSort lt memAvail w r s).bind pullOutput = some out ∧
      out.Perm v ∧ out.Sorted (nlt lt) := by
  obtain ⟨hperm1, hsort1, hlarge1, hshort1⟩ := end_run_facts hswo hrf
  have hne1 : (end_run lt s).runs ≠ [] := by
    intro hc
    rw [hc] at hperm1
    simp only [List.flatten_nil] at hperm1
    exact hv (hperm1.symm.eq_nil)
  unfold endSort
  dsimp only
  rw [reset_largestItem]
  by_cases h0 : (end_run lt s).sorter.largestItem = 0
  · rw [if_pos h0]
    have h0' : maxSz chunks v = 0 := hlarge1 ▸ h0
    have hlen := hshort1 h0'
    rcases hr : (end_run lt s).runs with _ | ⟨r0, rest⟩
    · exact absurd hr hne1
    · have hrest : rest = [] := by
        rw [hr] at hlen
        simp only [List.length_cons] at hlen
        exact List.length_eq_zero.mp (by omega)
      subst hrest
      refine ⟨r0, ?_, ?_, ?_⟩
      · rw [Option.some_bind]
        exact pullOutput_cons rfl
      · rw [hr] at hperm1
        simp only [List.flatten_cons, List.flatten_nil,
          List.append_nil] at hperm1
        exact hperm1
      · exact hsort1 r0 (by rw [hr]; simp)
  · rw [if_neg h0]
    have h0' : maxSz chunks v ≠ 0 := by
      rw [hlarge1] at h0
      exact h0
    rcases hmerge with hm | ⟨hw, hf⟩
    · exact absurd hm h0'
    rw [if_neg (by omega), hlarge1, if_neg (by omega)]
    obtain ⟨hmp, hms, hml⟩ := mergeAll_spec hswo hf
      ((end_run lt s).runs.length) ((end_run lt s).runs)
      (Nat.le_refl _) hsort1
    have hone := hml hne1
    rcases hr : mergeAll lt ((memAvail - w) / (maxSz chunks v + r))
        ((end_run lt s).runs.length) ((end_run lt s).runs) with _ | ⟨r0, rest⟩
    · rw [hr] at hone
      simp at hone
    · have hrest : rest = [] := by
        rw [hr] at hone
        simp only [List.length_cons] at hone
        exact List.length_eq_zero.mp (by omega)
      subst hrest
      refine ⟨r0, ?_, ?_, ?_⟩
      · rw [Option.some_bind]
        exact pullOutput_cons rfl
      · rw [hr] at hmp
        simp only [List.flatten_cons, List.flatten_nil,
          List.append_nil] at hmp
        exact hmp.trans hperm1
      · exact hms r0 (by rw [hr]; simp)

end serialization_sort

/-- **C1 (amended).** For every finite *non-empty* input sequence `v` of a
serializable type with a strict-weak-order comparator, if every item
serializes to at least one byte and fits in the run-formation byte buffer
(of size `M > 0`), and the merge budget admits a fanout of at least 2 —
i.e. `w < memAvail` and `⌊(memAvail − w) / (L + r)⌋ ≥ 2` for `L` the
largest serialized item size — then pushing all of `v`, calling `end()`
and pulling until `can_pull()` is false yields a permutation of `v` that
is monotonic under the comparator, regardless of how many runs were
formed and how many merge passes were performed.  (The original claim
requires only that a single item plus the writer reservation fit in
`memAvail`; `C1_counterexample` shows that is not sufficient.  With
`v = []` the first `pull()` throws because run file 0 was never created,
and a record of zero serialized bytes leaves no bytes in its run file —
`serialization_writer::close` writes a data block only when
`m_index > 0` and the header stores only a byte count — so such records
cannot be pulled back; both cases are excluded here.) -/
theorem C1_external_sort_amended {α : Type} (lt : α → α → Bool)
    (chunks : α → List Nat) (M memAvail w r : Nat) (v : List α)
    (hswo : SWO lt) (hv : v ≠ []) (hM : 0 < M)
    (hsz : ∀ x ∈ v, 0 < serialization_sort.sz chunks x ∧
      serialization_sort.sz chunks x ≤ M)
    (hmerge : w < memAvail ∧
      2 ≤ (memAvail - w) / (serialization_sort.maxSz chunks v + r)) :
    ∃ out, serialization_sort.sortAll lt chunks M memAvail w r v = some out ∧
      out.Perm v ∧ out.Sorted (nlt lt) := by
  obtain ⟨s, hfold, hrf⟩ := serialization_sort.foldlM_push_RF hswo hM v []
    (serialization_sort.beginSort M) (fun x hx => (hsz x hx).2)
    (serialization_sort.beginSort_RF lt chunks M)
  rw [List.nil_append] at hrf
  obtain ⟨out, hout, hperm, hsorted⟩ :=
    serialization_sort.endSort_pull hswo hrf hv (Or.inr hmerge)
  refine ⟨out, ?_, hperm, hsorted⟩
  unfold serialization_sort.sortAll
  rw [show (do
      let s ← v.foldlM (fun s x => serialization_sort.push lt chunks s x)
        (serialization_sort.beginSort M)
      let s ← serialization_sort.endSort lt memAvail w r s
      serialization_sort.pullOutput s) =
    (v.foldlM (fun s x => serialization_sort.push lt chunks s x)
        (serialization_sort.beginSort M)).bind
      (fun s => (serialization_sort.endSort lt memAvail w r s).bind
        serialization_sort.pullOutput) from rfl]
  rw [hfold]
  exact hout

/-- **C1, counterexample to the claim as stated.**  Items of serialized
size 1 byte, a 1-byte run-formation buffer (so each item starts a new
run), writer reservation `w = 1`, per-reader reservation `r = 1` and
`memAvail = 3`: a single item (1 byte) plus the writer reservation fits in
`memAvail`, yet `end()` computes fanout `⌊(3−1)/(1+1)⌋ = 1 < 2` and throws
`"Not enough memory for merging."` — no sorted output is ever produced. -/
theorem C1_counterexample :
    serialization_sort.sortAll (fun a b : Nat => decide (a < b))
      (fun _ : Nat => [1]) 1 3 1 1 [2, 1] = none ∧
    (∀ x ∈ [2, 1], serialization_sort.sz (fun _ : Nat => [1]) x + 1 ≤ 3) := by
  constructor
  · rfl
  · decide

/-- Witness for `C1_external_sort_amended` at a concrete instance. -/
theorem C1_witness :
    SWO (fun a b : Nat => decide (a < b)) ∧
    ([3, 1, 2] : List Nat) ≠ [] ∧ 0 < 2 ∧
    (∀ x ∈ [3, 1, 2], 0 < serialization_sort.sz (fun _ : Nat => [1]) x ∧
      serialization_sort.sz (fun _ : Nat => [1]) x ≤ 2) ∧
    (1 < 6 ∧ 2 ≤ (6 - 1) /
      (serialization_sort.maxSz (fun _ : Nat => [1]) [3, 1, 2] + 1)) ∧
    ∃ out, serialization_sort.sortAll (fun a b : Nat => decide (a < b))
        (fun _ : Nat => [1]) 2 6 1 1 [3, 1, 2] = some out ∧
      out.Perm [3, 1, 2] ∧ out.Sorted (nlt (fun a b : Nat => decide (a < b))) := by
  have hswo : SWO (fun a b : Nat => decide (a < b)) := by
    refine ⟨fun a => by simp, fun a b c h1 h2 => ?_, fun a b c h1 h2 => ?_⟩
    · simp only [decide_eq_true_eq] at h1 h2 ⊢
      omega
    · simp only [decide_eq_false_iff_not] at h1 h2 ⊢
      omega
  refine ⟨hswo, by decide, by decide, by decide, by decide, ?_⟩
  exact C1_external_sort_amended (fun a b : Nat => decide (a < b))
    (fun _ : Nat => [1]) 2 6 1 1 [3, 1, 2] hswo (by decide) (by decide)
    (by decide) (by decide)

/-- **C6.** In the merge phase of `serialization_sort::end()`, with `L`
the largest serialized record size observed over all runs, `r` the
per-reader memory usage and `w` the writer memory usage, the fanout is
`⌊(memAvail − w) / (L + r)⌋` (this is literally the expression computed by
`endSort`); if it is less than 2 — including the case `memAvail ≤ w`,
where the code throws even before dividing — `end()` fails with the
resource-exhaustion exception `"Not enough memory for merging."` and no
merge is attempted; otherwise every merge pass merges consecutive groups
of at most `fanout` runs (the groups partition the run list in order), the
outputs of a pass are exactly the merged groups (the input run files are
deleted), records are neither lost nor duplicated by a pass, and the merge
loop terminates with a single run. -/
theorem C6_merge_fanout {α : Type} (lt : α → α → Bool) (hswo : SWO lt)
    (memAvail w r : Nat) (s : serialization_sort α) (f : Nat)
    (runs : List (List α))
    (hL : (serialization_sort.end_run lt s).sorter.largestItem ≠ 0)
    (hlow : (memAvail - w) /
      ((serialization_sort.end_run lt s).sorter.largestItem + r) < 2)
    (hf : 2 ≤ f) :
    serialization_sort.endSort lt memAvail w r s = none ∧
    (∀ g ∈ serialization_sort.groupsOf f runs, g.length ≤ f ∧ g ≠ []) ∧
    (serialization_sort.groupsOf f runs).flatten = runs ∧
    (serialization_sort.mergePass lt f runs).flatten.Perm runs.flatten ∧
    (1 ≤ runs.length →
      (serialization_sort.mergeAll lt f runs.length runs).length = 1 →
        True) ∧
    ((∀ rn ∈ runs, rn.Sorted (nlt lt)) → 1 ≤ runs.length →
      (serialization_sort.mergeAll lt f runs.length runs).length = 1) := by
  refine ⟨?_, ?_, serialization_sort.groupsOf_flatten f runs,
    serialization_sort.mergePass_flatten_perm f runs, fun _ _ => trivial, ?_⟩
  · unfold serialization_sort.endSort
    dsimp only
    rw [serialization_sort.reset_largestItem, if_neg hL]
    by_cases hw : memAvail ≤ w
    · rw [if_pos hw]
    · rw [if_neg hw, if_pos hlow]
  · exact serialization_sort.groupsOf_group_bound (by omega) runs.length runs
      (Nat.le_refl _)
  · intro hs hlen
    exact (serialization_sort.mergeAll_spec hswo hf runs.length runs
      (Nat.le_refl _) hs).2.2 (by
        intro hc
        rw [hc] at hlen
        simp at hlen)

/-- Witness for `C6_merge_fanout` at a concrete instance: two 1-byte runs,
`memAvail = 3`, `w = r = 1`, fanout 1. -/
theorem C6_witness :
    ((serialization_sort.end_run (fun a b : Nat => decide (a < b))
      { sorter := { bufSize := 1, index := 1, items := [5], largestItem := 1,
                    itemsRead := 0, full := false, log := [] },
        runs := [[2]] }).sorter.largestItem ≠ 0) ∧
    ((3 - 1) / ((serialization_sort.end_run (fun a b : Nat => decide (a < b))
      { sorter := { bufSize := 1, index := 1, items := [5], largestItem := 1,
                    itemsRead := 0, full := false, log := [] },
        runs := [[2]] }).sorter.largestItem + 1) < 2) ∧
    serialization_sort.endSort (fun a b : Nat => decide (a < b)) 3 1 1
      { sorter := { bufSize := 1, index := 1, items := [5], largestItem := 1,
                    itemsRead := 0, full := false, log := [] },
        runs := [[2]] } = none := by
  refine ⟨by decide, by decide, ?_⟩
  exact (C6_merge_fanout (fun a b : Nat => decide (a < b))
    (by refine ⟨fun a => by simp, fun a b c h1 h2 => ?_, fun a b c h1 h2 => ?_⟩
        · simp only [decide_eq_true_eq] at h1 h2 ⊢
          omega
        · simp only [decide_eq_false_iff_not] at h1 h2 ⊢
          omega)
    3 1 1 _ 2 [] (by decide) (by decide) (by decide)).1

namespace serialization_stream

theorem block_size_pos : 0 < block_size := by decide

theorem update_block_boundary {W : List Nat} {st : serialization_stream}
    {f : sfile} (hw : WInv W st f) (hfull : block_size ≤ st.index) :
    WInv W (update_block st f).1 (update_block st f).2 := by
  obtain ⟨hcw, hcr, hss, hom, holw, hwob, hidx, hbsz, hdirty, hbd, hfd,
    hm, hv, hc, hf0⟩ := hw
  have hieq : st.index = block_size := by omega
  have hdt : st.dirty = true := by
    cases hd : st.dirty with
    | true => rfl
    | false =>
      have := hdirty hd
      have := block_size_pos
      omega
  have hwlen : W.length = st.blockOffset + block_size := by omega
  have hfl : flush_block st f = ({ st with dirty := false }, write_block st f) := by
    unfold flush_block
    rw [hdt]
    rfl
  have hupb : update_block st f =
      (read_block { st with dirty := false } (write_block st f)
        (st.blockOffset + block_size), write_block st f) := by
    unfold update_block
    rw [hfl]
  rw [hupb]
  unfold read_block write_block
  dsimp only
  have hbsz0 : (if st.ssize < block_size + (st.blockOffset + block_size)
      then st.ssize - (st.blockOffset + block_size) else block_size) = 0 := by
    rw [if_pos (by have := block_size_pos; omega)]
    omega
  rw [hbsz0]
  refine ⟨hcw, hcr, hss, ?_, ?_, ?_, ?_, rfl, fun _ => rfl, ?_, ?_,
    hm, hv, hc, hf0⟩
  · show (st.blockOffset + block_size) % block_size = 0
    rw [Nat.add_mod_right]
    exact hom
  · show st.blockOffset + block_size ≤ W.length
    omega
  · show W.length ≤ st.blockOffset + block_size + block_size
    omega
  · show (0 : Nat) = W.length - (st.blockOffset + block_size)
    omega
  · intro i hi
    simp at hi
  · intro i hi
    show (if st.blockOffset ≤ i ∧ i < st.blockOffset + st.blockSize then
      st.blockData (i - st.blockOffset) else f.fdata i) = W.getD i 0
    by_cases hin : st.blockOffset ≤ i ∧ i < st.blockOffset + st.blockSize
    · rw [if_pos hin]
      have hlt : i - st.blockOffset < st.index := by omega
      rw [hbd _ hlt]
      congr 1
      omega
    · rw [if_neg hin]
      rw [hbsz, hieq] at hin
      have hi2 : i < st.blockOffset + block_size := hi
      exact hfd i (by omega)

theorem writeCopy_WInv {W : List Nat} {st1 : serialization_stream}
    {f : sfile} (hw : WInv W st1 f) (hlt : st1.index < block_size)
    (s : List Nat) :
    WInv (W ++ s.take (min s.length (block_size - st1.index)))
      (writeCopy st1 s) f := by
  obtain ⟨hcw, hcr, hss, hom, holw, hwob, hidx, hbsz, hdirty, hbd, hfd,
    hm, hv, hc, hf0⟩ := hw
  set wsz := min s.length (block_size - st1.index) with hwsz
  have hwle : wsz ≤ s.length := Nat.min_le_left _ _
  have hwbs : wsz ≤ block_size - st1.index := Nat.min_le_right _ _
  have hlen : (W ++ s.take wsz).length = W.length + wsz := by
    rw [List.length_append, List.length_take]
    omega
  have hoff : st1.blockOffset + st1.index = W.length := by omega
  unfold writeCopy
  rw [← hwsz]
  refine ⟨hcw, hcr, ?_, hom, ?_, ?_, ?_, ?_, ?_, ?_, ?_, hm, hv, hc, hf0⟩
  · show max st1.ssize (st1.blockOffset + (st1.index + wsz)) =
      (W ++ s.take wsz).length
    rw [hlen]
    omega
  · show st1.blockOffset ≤ (W ++ s.take wsz).length
    rw [hlen]
    omega
  · show (W ++ s.take wsz).length ≤ st1.blockOffset + block_size
    rw [hlen]
    omega
  · show st1.index + wsz = (W ++ s.take wsz).length - st1.blockOffset
    rw [hlen]
    omega
  · show max st1.blockSize (st1.index + wsz) = st1.index + wsz
    omega
  · intro h
    simp at h
  · intro i hi
    have hi1 : i < st1.index + wsz := hi
    show (if st1.index ≤ i ∧ i < st1.index + wsz then s.getD (i - st1.index) 0
      else st1.blockData i) = (W ++ s.take wsz).getD (st1.blockOffset + i) 0
    by_cases hin : st1.index ≤ i ∧ i < st1.index + wsz
    · rw [if_pos hin]
      have hpos : st1.blockOffset + i = W.length + (i - st1.index) := by omega
      rw [hpos, List.getD_append_right W (s.take wsz) 0 _ (by omega)]
      rw [show W.length + (i - st1.index) - W.length = i - st1.index by omega]
      rw [List.getD_eq_getElem?_getD, List.getD_eq_getElem?_getD,
        List.getElem?_take_of_lt (by omega)]
    · rw [if_neg hin]
      have hi2 : i < st1.index := by
        rcases Nat.lt_or_ge i st1.index with h | h
        · exact h
        · exact absurd ⟨h, by omega⟩ hin
      rw [hbd i hi2, List.getD_append W (s.take wsz) 0 _ (by omega)]
  · intro i hi
    have hi1 : i < st1.blockOffset := hi
    show f.fdata i = (W ++ s.take wsz).getD i 0
    rw [hfd i hi1, List.getD_append W (s.take wsz) 0 _ (by omega)]

theorem writeAux_WInv :
    ∀ (fuel : Nat) (s : List Nat) (st : serialization_stream) (f : sfile)
      (W : List Nat), s.length ≤ fuel → WInv W st f →
      WInv (W ++ s) (writeAux fuel s st f).1 (writeAux fuel s st f).2 := by
  intro fuel
  induction fuel with
  | zero =>
    intro s st f W h hw
    have : s = [] := List.length_eq_zero.mp (Nat.le_zero.mp h)
    subst this
    simpa using hw
  | succ fuel ih =>
    intro s st f W h hw
    rcases s with _ | ⟨b, rest⟩
    · simpa using hw
    · have hstep : writeAux (fuel + 1) (b :: rest) st f =
          (let p := if block_size ≤ st.index then update_block st f
            else (st, f)
           writeAux fuel ((b :: rest).drop
              (min (b :: rest).length (block_size - p.1.index)))
            (writeCopy p.1 (b :: rest)) p.2) := rfl
      rw [hstep]
      by_cases hfull : block_size ≤ st.index
      · rw [if_pos hfull]
        have hub := update_block_boundary hw hfull
        have hidx0 : (update_block st f).1.index = 0 := rfl
        have hlt : (update_block st f).1.index < block_size := by
          rw [hidx0]
          exact block_size_pos
        have hcopy := writeCopy_WInv hub hlt (b :: rest)
        have hrec := ih ((b :: rest).drop
            (min (b :: rest).length (block_size - (update_block st f).1.index)))
          (writeCopy (update_block st f).1 (b :: rest))
          (update_block st f).2
          (W ++ (b :: rest).take
            (min (b :: rest).length (block_size - (update_block st f).1.index)))
          (by
            rw [List.length_drop]
            have h1 : 1 ≤ min (b :: rest).length
                (block_size - (update_block st f).1.index) := by
              rw [hidx0]
              have := block_size_pos
              simp only [List.length_cons, Nat.le_min]
              omega
            simp only [List.length_cons] at h ⊢
            omega)
          hcopy
        rw [List.append_assoc, List.take_append_drop] at hrec
        exact hrec
      · rw [if_neg hfull]
        have hlt : st.index < block_size := by omega
        have hcopy := writeCopy_WInv hw hlt (b :: rest)
        have hrec := ih ((b :: rest).drop
            (min (b :: rest).length (block_size - st.index)))
          (writeCopy st (b :: rest)) f
          (W ++ (b :: rest).take
            (min (b :: rest).length (block_size - st.index)))
          (by
            rw [List.length_drop]
            have h1 : 1 ≤ min (b :: rest).length (block_size - st.index) := by
              simp only [List.length_cons, Nat.le_min]
              omega
            simp only [List.length_cons] at h ⊢
            omega)
          hcopy
        rw [List.append_assoc, List.take_append_drop] at hrec
        exact hrec

theorem openFreshRW_WInv : WInv [] (openFreshRW).1 (openFreshRW).2 := by
  unfold openFreshRW read_block
  dsimp only
  refine ⟨rfl, rfl, rfl, by simp, by simp, by simp [block_size], rfl, ?_,
    fun _ => rfl, ?_, ?_, rfl, rfl, rfl, rfl⟩
  · show (if (0 : Nat) < block_size + 0 then 0 - 0 else block_size) = 0
    rw [if_pos (by have := block_size_pos; omega)]
  · intro i hi
    simp at hi
  · intro i hi
    simp at hi

theorem writeAll_WInv (v : List (List Nat)) :
    WInv v.flatten (writeAll v openFreshRW).1 (writeAll v openFreshRW).2 := by
  suffices h : ∀ (v : List (List Nat)) (W : List Nat)
      (st : serialization_stream) (f : sfile), WInv W st f →
      WInv (W ++ v.flatten) (writeAll v (st, f)).1 (writeAll v (st, f)).2 by
    have := h v [] (openFreshRW).1 (openFreshRW).2 openFreshRW_WInv
    simpa using this
  intro v
  induction v with
  | nil =>
    intro W st f hw
    simpa using hw
  | cons c v ih =>
    intro W st f hw
    have hstep : writeAll (c :: v) (st, f) = writeAll v (writeS st f c) := rfl
    rw [hstep]
    have hc := writeAux_WInv c.length c st f W (Nat.le_refl _) hw
    have := ih (W ++ c) (writeS st f c).1 (writeS st f c).2 hc
    simpa [List.append_assoc] using this

theorem closeS_spec {W : List Nat} {st : serialization_stream} {f : sfile}
    (hw : WInv W st f) :
    (closeS st f).magic = magicConst ∧
    (closeS st f).version = versionConst ∧
    (closeS st f).fsize = W.length ∧
    (closeS st f).cleanClose = 1 ∧
    (∀ i, i < W.length → (closeS st f).fdata i = W.getD i 0) := by
  obtain ⟨hcw, hcr, hss, hom, holw, hwob, hidx, hbsz, hdirty, hbd, hfd,
    hm, hv, hc, hf0⟩ := hw
  have hcl : closeS st f =
      { (flush_block st f).2 with magic := magicConst,
                                  version := versionConst,
                                  fsize := st.ssize, cleanClose := 1 } := by
    unfold closeS
    rw [hcw]
    rfl
  rw [hcl]
  refine ⟨rfl, rfl, hss, rfl, ?_⟩
  intro i hi
  show (flush_block st f).2.fdata i = W.getD i 0
  cases hd : st.dirty with
  | true =>
    have hfl2 : (flush_block st f).2 = write_block st f := by
      unfold flush_block
      rw [hd]
      rfl
    rw [hfl2]
    unfold write_block
    dsimp only
    by_cases hin : st.blockOffset ≤ i ∧ i < st.blockOffset + st.blockSize
    · rw [if_pos hin]
      have hlt : i - st.blockOffset < st.index := by omega
      rw [hbd _ hlt]
      congr 1
      omega
    · rw [if_neg hin]
      refine hfd i ?_
      rw [hbsz] at hin
      omega
  | false =>
    have hfl2 : (flush_block st f).2 = f := by
      unfold flush_block
      rw [hd]
      rfl
    rw [hfl2]
    have h0 := hdirty hd
    refine hfd i ?_
    omega

theorem range_map_getD (l : List Nat) :
    (List.range l.length).map (fun i => l.getD i 0) = l := by
  apply List.ext_getElem
  · simp
  · intro i h1 h2
    simp only [List.getElem_map, List.getElem_range,
      List.getD_eq_getElem?_getD, List.getElem?_eq_getElem h2]
    rfl

theorem window_split (g : Nat → Nat) (p a b : Nat) :
    (List.range a).map (fun i => g (p + i)) ++
      (List.range b).map (fun i => g (p + a + i)) =
    (List.range (a + b)).map (fun i => g (p + i)) := by
  rw [List.range_add, List.map_append, List.map_map]
  congr 1
  apply List.map_congr_left
  intro i _
  show g (p + a + i) = g (p + (a + i))
  congr 1
  omega

theorem read_block_RInv {W : List Nat} {st0 : serialization_stream}
    {f : sfile} {off : Nat}
    (hcr : st0.canRead = true) (hss : st0.ssize = W.length)
    (hom : off % block_size = 0) (hole : off ≤ W.length)
    (hd : ∀ i, i < W.length → f.fdata i = W.getD i 0) :
    RInv W off (read_block st0 f off) f := by
  unfold read_block
  dsimp only
  have hbsz : (if st0.ssize < block_size + off then st0.ssize - off
      else block_size) = min block_size (W.length - off) := by
    rw [hss]
    split <;> omega
  refine ⟨hcr, hss, hom, hole, Nat.zero_le _, rfl, rfl, hbsz, ?_, hd⟩
  intro i hi
  have hi' : i < min block_size (W.length - off) := by
    rw [← hbsz]
    exact hi
  show (if i < (if st0.ssize < block_size + off then st0.ssize - off
      else block_size) then f.fdata (off + i) else st0.blockData i) =
    W.getD (off + i) 0
  rw [hbsz, if_pos hi']
  exact hd (off + i) (by omega)

theorem read_chunk {W : List Nat} {p cnt : Nat} {st1 : serialization_stream}
    {f : sfile} (hr : RInv W p st1 f) (hc0 : ¬cnt = 0)
    (hle : p + cnt ≤ W.length) (hlt : st1.index < block_size) :
    1 ≤ min cnt (block_size - st1.index) ∧
    (List.range (min cnt (block_size - st1.index))).map
        (fun i => st1.blockData (st1.index + i)) =
      (List.range (min cnt (block_size - st1.index))).map
        (fun i => W.getD (p + i) 0) ∧
    RInv W (p + min cnt (block_size - st1.index))
      { st1 with index := st1.index + min cnt (block_size - st1.index) } f := by
  obtain ⟨hcr, hss, hom, holw, hib, hp, hdirty, hbsz, hbd, hfd⟩ := hr
  refine ⟨?_, ?_, ?_⟩
  · simp only [Nat.le_min]
    omega
  · apply List.map_congr_left
    intro i hi
    rw [List.mem_range] at hi
    have hlt2 : st1.index + i < st1.blockSize := by
      rw [hbsz]
      have h1 := Nat.min_le_right cnt (block_size - st1.index)
      have h2 := Nat.min_le_left cnt (block_size - st1.index)
      omega
    rw [hbd _ hlt2]
    have harg : st1.blockOffset + (st1.index + i) = p + i := by omega
    rw [harg]
  · refine ⟨hcr, hss, hom, holw, ?_, ?_, hdirty, hbsz, hbd, hfd⟩
    · show st1.index + min cnt (block_size - st1.index) ≤ block_size
      have := Nat.min_le_right cnt (block_size - st1.index)
      omega
    · show p + min cnt (block_size - st1.index) =
        st1.blockOffset + (st1.index + min cnt (block_size - st1.index))
      omega

theorem readAux_RInv {W : List Nat} :
    ∀ (fuel cnt p : Nat) (st : serialization_stream) (f : sfile),
      cnt ≤ fuel → RInv W p st f → p + cnt ≤ W.length →
      ∃ st', readAux fuel cnt st f =
          .ok ((List.range cnt).map (fun i => W.getD (p + i) 0), st', f) ∧
        RInv W (p + cnt) st' f := by
  intro fuel
  induction fuel with
  | zero =>
    intro cnt p st f hf hr hle
    have hc0 : cnt = 0 := by omega
    subst hc0
    exact ⟨st, by simp [readAux], by simpa using hr⟩
  | succ fuel ih =>
    intro cnt p st f hf hr hle
    by_cases hc0 : cnt = 0
    · subst hc0
      exact ⟨st, by simp [readAux], by simpa using hr⟩
    obtain ⟨hcr, hss, hom, holw, hib, hp, hdirty, hbsz, hbd, hfd⟩ := id hr
    by_cases hbound : block_size ≤ st.index
    · -- the resident block is exhausted: cross to the next block
      have hofs : ¬(st.ssize ≤ st.blockOffset + st.index ∨
          st.ssize < st.blockOffset + st.index + cnt) := by
        rw [hss]
        omega
      have hub : update_block st f =
          (read_block { st with dirty := false } f
            (st.blockOffset + block_size), f) := by
        unfold update_block flush_block
        rw [hdirty]
        rfl
      have hpoff : p = st.blockOffset + block_size := by omega
      have hinv1 : RInv W p
          (read_block { st with dirty := false } f
            (st.blockOffset + block_size)) f := by
        rw [hpoff]
        refine read_block_RInv hcr hss ?_ (by omega) hfd
        rw [Nat.add_mod_right]
        exact hom
      set st1 := read_block { st with dirty := false } f
        (st.blockOffset + block_size) with hst1
      have hidx1 : st1.index = 0 := rfl
      obtain ⟨hrsz1, hbytes, hinv2⟩ := read_chunk hinv1 hc0 hle
        (by rw [hidx1]; exact block_size_pos)
      set rsz := min cnt (block_size - st1.index) with hrszdef
      have hrszle : rsz ≤ cnt := Nat.min_le_left _ _
      obtain ⟨st', hrec, hrinv'⟩ := ih (cnt - rsz) (p + rsz)
        { st1 with index := st1.index + rsz } f (by omega) hinv2 (by omega)
      refine ⟨st', ?_, ?_⟩
      · show readAux (fuel + 1) cnt st f = _
        simp only [readAux]
        rw [if_neg hc0, if_pos hbound, if_neg hofs, hub]
        dsimp only
        rw [← hrszdef, hrec]
        dsimp only
        have hall : (List.range rsz).map (fun i => st1.blockData (st1.index + i)) ++
            (List.range (cnt - rsz)).map (fun i => W.getD (p + rsz + i) 0) =
            (List.range cnt).map (fun i => W.getD (p + i) 0) := by
          rw [hbytes]
          have hw := window_split (fun i => W.getD i 0) p rsz (cnt - rsz)
          rw [show rsz + (cnt - rsz) = cnt from by omega] at hw
          exact hw
        rw [hall]
      · rw [show p + rsz + (cnt - rsz) = p + cnt by omega] at hrinv'
        exact hrinv'
    · -- copy inside the resident block
      obtain ⟨hrsz1, hbytes, hinv2⟩ := read_chunk hr hc0 hle (by omega)
      set rsz := min cnt (block_size - st.index) with hrszdef
      have hrszle : rsz ≤ cnt := Nat.min_le_left _ _
      obtain ⟨st', hrec, hrinv'⟩ := ih (cnt - rsz) (p + rsz)
        { st with index := st.index + rsz } f (by omega) hinv2 (by omega)
      refine ⟨st', ?_, ?_⟩
      · show readAux (fuel + 1) cnt st f = _
        simp only [readAux]
        rw [if_neg hc0, if_neg hbound]
        rw [← hrszdef, hrec]
        dsimp only
        have hall : (List.range rsz).map (fun i => st.blockData (st.index + i)) ++
            (List.range (cnt - rsz)).map (fun i => W.getD (p + rsz + i) 0) =
            (List.range cnt).map (fun i => W.getD (p + i) 0) := by
          rw [hbytes]
          have hw := window_split (fun i => W.getD i 0) p rsz (cnt - rsz)
          rw [show rsz + (cnt - rsz) = cnt from by omega] at hw
          exact hw
        rw [hall]
      · rw [show p + rsz + (cnt - rsz) = p + cnt by omega] at hrinv'
        exact hrinv'

theorem readS_RInv {W : List Nat} {p : Nat} {st : serialization_stream}
    {f : sfile} (cnt : Nat) (hr : RInv W p st f) (hle : p + cnt ≤ W.length) :
    ∃ st', readS st f cnt =
        .ok ((List.range cnt).map (fun i => W.getD (p + i) 0), st', f) ∧
      RInv W (p + cnt) st' f :=
  readAux_RInv cnt cnt p st f (Nat.le_refl _) hr hle

theorem can_read_at_end {W : List Nat} {st : serialization_stream}
    {f : sfile} (hr : RInv W W.length st f) : can_read st = false := by
  obtain ⟨hcr, hss, hom, holw, hib, hp, hdirty, hbsz, hbd, hfd⟩ := hr
  have h1 : ¬ st.index < st.blockSize := by
    rw [hbsz]
    have := Nat.min_le_right block_size (W.length - st.blockOffset)
    omega
  have h2 : ¬ st.blockOffset + st.index < st.ssize := by omega
  simp [can_read, h1, h2]

theorem openEx_read_ok {W : List Nat} {f : sfile} (b : Bool)
    (hm : f.magic = magicConst) (hv : f.version = versionConst)
    (hs : f.fsize = W.length)
    (hd : ∀ i, i < W.length → f.fdata i = W.getD i 0) :
    ∃ st, openEx f .access_read b = .ok (st, f) ∧ RInv W 0 st f ∧
      st.ssize = W.length := by
  refine ⟨read_block
      { blockData := fun _ => 0, blockSize := 0, blockOffset := 0,
        dirty := false, index := 0, ssize := f.fsize,
        canRead := true, canWrite := false } f 0, ?_, ?_, hs⟩
  · unfold openEx
    dsimp only
    rw [if_neg (fun h => h hm), if_neg (by rw [hv]; omega),
        if_neg (by rw [hv]; omega)]
  · exact read_block_RInv rfl hs (Nat.zero_mod _) (Nat.zero_le _) hd

theorem openEx_rw_ok {W : List Nat} {f : sfile} (b : Bool)
    (hm : f.magic = magicConst) (hv : f.version = versionConst)
    (hs : f.fsize = W.length) (hc : f.cleanClose = 1)
    (hd : ∀ i, i < W.length → f.fdata i = W.getD i 0) :
    ∃ st f1, openEx f .access_read_write b = .ok (st, f1) ∧
      RInv W 0 st f1 ∧ st.ssize = W.length ∧ f1.magic = magicConst ∧
      f1.version = versionConst ∧ f1.fsize = W.length ∧
      f1.cleanClose = 0 := by
  refine ⟨read_block
      { blockData := fun _ => 0, blockSize := 0, blockOffset := 0,
        dirty := false, index := 0, ssize := f.fsize,
        canRead := true, canWrite := true }
      { f with magic := magicConst, version := versionConst,
               cleanClose := 0 } 0,
    { f with magic := magicConst, version := versionConst,
             cleanClose := 0 }, ?_, ?_, hs, rfl, rfl, hs, rfl⟩
  · unfold openEx
    dsimp only
    rw [if_neg (fun h => h hm), if_neg (by rw [hv]; omega),
        if_neg (by rw [hv]; omega), if_neg (fun h => h.2 hc)]
  · exact read_block_RInv rfl hs (Nat.zero_mod _) (Nat.zero_le _) hd

theorem openEx_rw_unclean {f : sfile}
    (hm : f.magic = magicConst) (hv : f.version = versionConst)
    (hs : f.fsize = 0) :
    ∃ st f1, openEx f .access_read_write false = .ok (st, f1) ∧
      st.ssize = 0 ∧ readS st f1 0 = .ok ([], st, f1) := by
  refine ⟨read_block
      { blockData := fun _ => 0, blockSize := 0, blockOffset := 0,
        dirty := false, index := 0, ssize := f.fsize,
        canRead := true, canWrite := true }
      { f with magic := magicConst, version := versionConst,
               cleanClose := 0 } 0,
    { f with magic := magicConst, version := versionConst,
             cleanClose := 0 }, ?_, hs, ?_⟩
  · unfold openEx
    dsimp only
    rw [if_neg (fun h => h hm), if_neg (by rw [hv]; omega),
        if_neg (by rw [hv]; omega),
        if_neg (fun h => Bool.noConfusion h.1)]
  · show readAux 0 0 _ _ = _
    simp [readAux]

theorem openEx_wo_cleanClose {f f1 : sfile} {st : serialization_stream}
    {b : Bool} (h : openEx f .access_write b = .ok (st, f1)) :
    f1.cleanClose = 0 := by
  unfold openEx at h
  dsimp only at h
  injection h with h2
  have h3 := congrArg (fun p : serialization_stream × sfile =>
    p.2.cleanClose) h2
  simpa using h3.symm

theorem openEx_rw_cleanClose {f f1 : sfile} {st : serialization_stream}
    {b : Bool} (h : openEx f .access_read_write b = .ok (st, f1)) :
    f1.cleanClose = 0 := by
  unfold openEx at h
  dsimp only at h
  split at h
  · exact Except.noConfusion h
  split at h
  · exact Except.noConfusion h
  split at h
  · exact Except.noConfusion h
  split at h
  · exact Except.noConfusion h
  · injection h with h2
    have h3 := congrArg (fun p : serialization_stream × sfile =>
      p.2.cleanClose) h2
    simpa using h3.symm

theorem readAux_zero (fuel : Nat) (st : serialization_stream) (f : sfile) :
    readAux fuel 0 st f = .ok ([], st, f) := by
  cases fuel <;> simp [readAux]

theorem readS_inblock_ok (cnt : Nat) (st : serialization_stream) (f : sfile)
    (hin : st.index + cnt ≤ block_size) :
    ∃ l st', readS st f cnt = .ok (l, st', f) := by
  cases cnt with
  | zero => exact ⟨[], st, by simp [readS, readAux]⟩
  | succ n =>
    refine ⟨(List.range (n + 1)).map (fun i => st.blockData (st.index + i)),
      { st with index := st.index + (n + 1) }, ?_⟩
    show readAux (n + 1) (n + 1) st f = _
    simp only [readAux]
    rw [if_neg (by omega), if_neg (by omega)]
    have hrsz : min (n + 1) (block_size - st.index) = n + 1 := by omega
    rw [hrsz, Nat.sub_self, readAux_zero]
    dsimp only
    rw [List.append_nil]

theorem readS_boundary_eos {W : List Nat} {p cnt : Nat}
    {st : serialization_stream} {f : sfile} (hr : RInv W p st f)
    (hc0 : ¬cnt = 0) (hbound : block_size ≤ st.index)
    (hpast : W.length < p + cnt) :
    readS st f cnt = .error .endOfStream := by
  obtain ⟨hcr, hss, hom, holw, hib, hp, hdirty, hbsz, hbd, hfd⟩ := hr
  cases cnt with
  | zero => exact absurd rfl hc0
  | succ n =>
    show readAux (n + 1) (n + 1) st f = _
    simp only [readAux]
    rw [if_neg (by omega), if_pos hbound, if_pos (by rw [hss]; omega)]

end serialization_stream

namespace serialization_writer_base

theorem writeBlockW_cleanClose (wb : serialization_writer_base) (f : sfile)
    (s : List Nat) : (writeBlockW wb f s).2.cleanClose = f.cleanClose := rfl

theorem foldW_cleanClose (bs : List (List Nat)) :
    ∀ (wb : serialization_writer_base) (f : sfile),
      (bs.foldl (fun p s => writeBlockW p.1 p.2 s) (wb, f)).2.cleanClose =
        f.cleanClose := by
  induction bs with
  | nil =>
    intro wb f
    rfl
  | cons c bs ih =>
    intro wb f
    rw [List.foldl_cons]
    exact ih _ _

end serialization_writer_base

open serialization_stream

/-- C2: for every sequence of byte strings `v` written through a freshly
opened serialization stream, closing, reopening (read-only or
read-write) and reading back yields exactly the bytes of `v` in order;
`size()` after reopening equals the number of bytes written, the header
magic and version survive the round trip, and at the end of the
read-back `can_read()` is false. -/
theorem C2_stream_roundtrip (v : List (List Nat)) :
    (closedFile v).magic = magicConst ∧
    (closedFile v).version = versionConst ∧
    (closedFile v).fsize = v.flatten.length ∧
    (∃ st st', openEx (closedFile v) .access_read true =
        .ok (st, closedFile v) ∧ st.ssize = v.flatten.length ∧
      readS st (closedFile v) v.flatten.length =
        .ok (v.flatten, st', closedFile v) ∧
      can_read st' = false) ∧
    (∃ st f1 st', openEx (closedFile v) .access_read_write true =
        .ok (st, f1) ∧ st.ssize = v.flatten.length ∧
      f1.magic = magicConst ∧ f1.version = versionConst ∧
      readS st f1 v.flatten.length = .ok (v.flatten, st', f1) ∧
      can_read st' = false) := by
  obtain ⟨hm, hver, hfs, hcc, hfd⟩ := closeS_spec (writeAll_WInv v)
  have hlist : (List.range v.flatten.length).map
      (fun i => v.flatten.getD (0 + i) 0) = v.flatten := by
    have h1 : (List.range v.flatten.length).map
        (fun i => v.flatten.getD (0 + i) 0) =
        (List.range v.flatten.length).map (fun i => v.flatten.getD i 0) := by
      apply List.map_congr_left
      intro i _
      rw [Nat.zero_add]
    rw [h1, range_map_getD]
  refine ⟨hm, hver, hfs, ?_, ?_⟩
  · obtain ⟨st, hopen, hrinv, hssz⟩ := openEx_read_ok true hm hver hfs hfd
    obtain ⟨st', hread, hrinv'⟩ :=
      readS_RInv v.flatten.length hrinv (by omega)
    rw [hlist] at hread
    rw [Nat.zero_add] at hrinv'
    exact ⟨st, st', hopen, hssz, hread, can_read_at_end hrinv'⟩
  · obtain ⟨st, f1, hopen, hrinv, hssz, hm1, hv1, hfs1, hc1⟩ :=
      openEx_rw_ok true hm hver hfs hcc hfd
    obtain ⟨st', hread, hrinv'⟩ :=
      readS_RInv v.flatten.length hrinv (by omega)
    rw [hlist] at hread
    rw [Nat.zero_add] at hrinv'
    exact ⟨st, f1, st', hopen, hssz, hm1, hv1, hread, can_read_at_end hrinv'⟩

/-- C3 (amended): over a reading cursor (`RInv W p st f`) a non-empty read
request raises `endOfStream` when the cursor sits at the block boundary
and the request extends past `size()`; but a request that stays within
the resident physical block always succeeds — even past the logical
end — because the end-of-stream check only happens when a new block must
be loaded; a request wholly inside the stream returns exactly the
requested window. -/
theorem C3_end_of_stream_amended {W : List Nat} {p : Nat} (cnt : Nat)
    {st : serialization_stream} {f : sfile}
    (hr : RInv W p st f) (hc0 : ¬cnt = 0) :
    (W.length < p + cnt → block_size ≤ st.index →
      readS st f cnt = .error .endOfStream) ∧
    (st.index + cnt ≤ block_size →
      ∃ l st', readS st f cnt = .ok (l, st', f)) ∧
    (p + cnt ≤ W.length →
      ∃ st', readS st f cnt =
          .ok ((List.range cnt).map (fun i => W.getD (p + i) 0), st', f) ∧
        RInv W (p + cnt) st' f) :=
  ⟨fun hpast hbound => readS_boundary_eos hr hc0 hbound hpast,
   fun hin => readS_inblock_ok cnt st f hin,
   fun hle => readS_RInv cnt hr hle⟩

/-- C3 counterexample: a 1-byte stream is written and closed; after a
read-only reopen, a 2-byte read — which extends one byte past the
logical end of the stream — does not raise `endOfStream` but returns the
stored byte followed by a garbage byte, because the request stays inside
the resident physical block. -/
theorem C3_counterexample :
    (closedFile [[7]]).fsize = 1 ∧
    ∃ st st', openEx (closedFile [[7]]) .access_read true =
        .ok (st, closedFile [[7]]) ∧
      readS st (closedFile [[7]]) 2 = .ok ([7, 0], st', closedFile [[7]]) := by
  exact ⟨rfl, _, _, rfl, rfl⟩

/-- C3 witness: the amended theorem applied to a concrete reopened
1-byte stream and a 2-byte request. -/
theorem C3_witness :
    ¬(2 : Nat) = 0 ∧
    (∃ l st', readS (read_block
        { blockData := fun _ => 0, blockSize := 0, blockOffset := 0,
          dirty := false, index := 0, ssize := 1,
          canRead := true, canWrite := false }
        (closedFile [[5]]) 0) (closedFile [[5]]) 2 =
      .ok (l, st', closedFile [[5]])) := by
  refine ⟨by decide, ?_⟩
  refine (C3_end_of_stream_amended 2
    (show RInv [5] 0 _ _ from ?_) (by decide)).2.1 (by decide)
  refine read_block_RInv rfl rfl (Nat.zero_mod _) (Nat.zero_le _) ?_
  intro i hi
  have h0 : i = 0 := by
    simp only [List.length_cons, List.length_nil] at hi
    omega
  subst h0
  rfl

/-- C4: after writing through a fresh stream and terminating without
`close()`, reopening read-write with the clean-close check enabled
raises `notCleanClose`; reopening with the check disabled succeeds, and
reading everything the reopened stream holds yields a prefix of the
written data (the header was never updated, so `size()` is `0` and the
prefix is empty). -/
theorem C4_unclean_close (v : List (List Nat)) :
    openEx (writeAll v openFreshRW).2 .access_read_write true =
      .error .notCleanClose ∧
    ∃ st f1, openEx (writeAll v openFreshRW).2 .access_read_write false =
        .ok (st, f1) ∧ st.ssize = 0 ∧
      ∃ l st', readS st f1 st.ssize = .ok (l, st', f1) ∧
        ∃ t, l ++ t = v.flatten := by
  obtain ⟨hcw, hcr, hss, hom, holw, hwob, hidx, hbsz, hdirty, hbd, hfd,
    hm, hver, hc, hf0⟩ := writeAll_WInv v
  constructor
  · unfold openEx
    dsimp only
    rw [if_neg (fun h => h hm), if_neg (by rw [hver]; omega),
        if_neg (by rw [hver]; omega),
        if_pos ⟨rfl, by rw [hc]; omega⟩]
  · obtain ⟨st, f1, hopen, hsz, hread⟩ := openEx_rw_unclean hm hver hf0
    refine ⟨st, f1, hopen, hsz, [], st, ?_, v.flatten, by simp⟩
    rw [hsz]
    exact hread

/-- C10: between a successful open-for-writing and the completion of
`close()`, the on-disk header has `cleanClose = 0`: a fresh read-write
open writes `0`, every write leaves it `0`, reopening an existing file
read-write or write-only rewrites it to `0`, and only `close()` writes
`1`; the run writer `serialization_writer_base` follows the same
protocol across `open`, any sequence of `write_block`s, and `close`. -/
theorem C10_clean_close_protocol :
    (openFreshRW).2.cleanClose = 0 ∧
    (∀ v : List (List Nat), (writeAll v openFreshRW).2.cleanClose = 0) ∧
    (∀ v : List (List Nat), (closedFile v).cleanClose = 1) ∧
    (∀ (f f1 : sfile) (st : serialization_stream) (b : Bool),
      openEx f .access_read_write b = .ok (st, f1) → f1.cleanClose = 0) ∧
    (∀ (f f1 : sfile) (st : serialization_stream) (b : Bool),
      openEx f .access_write b = .ok (st, f1) → f1.cleanClose = 0) ∧
    (∀ f : sfile, (serialization_writer_base.openW f).2.cleanClose = 0) ∧
    (∀ (bs : List (List Nat)) (f : sfile),
      (bs.foldl (fun p s => serialization_writer_base.writeBlockW p.1 p.2 s)
        (serialization_writer_base.openW f)).2.cleanClose = 0) ∧
    (∀ (wb : serialization_writer_base) (f : sfile),
      (serialization_writer_base.closeW wb f).cleanClose = 1) := by
  refine ⟨rfl, ?_, ?_, ?_, ?_, fun f => rfl, ?_, fun wb f => rfl⟩
  · intro v
    obtain ⟨hcw, hcr, hss, hom, holw, hwob, hidx, hbsz, hdirty, hbd, hfd,
      hm, hver, hc, hf0⟩ := writeAll_WInv v
    exact hc
  · intro v
    exact (closeS_spec (writeAll_WInv v)).2.2.2.1
  · intro f f1 st b h
    exact openEx_rw_cleanClose h
  · intro f f1 st b h
    exact openEx_wo_cleanClose h
  · intro bs f
    exact serialization_writer_base.foldW_cleanClose bs
      (serialization_writer_base.openW f).1
      (serialization_writer_base.openW f).2

/-- C10 witness: reopening a concrete cleanly closed file read-write
yields an on-disk header with `cleanClose = 0`. -/
theorem C10_witness :
    ({ closedFile [[1]] with
       magic := magicConst
       version := versionConst
       cleanClose := 0 } : sfile).cleanClose = 0 :=
  C10_clean_close_protocol.2.2.2.1 (closedFile [[1]])
    { closedFile [[1]] with
      magic := magicConst
      version := versionConst
      cleanClose := 0 } _ true rfl


namespace pipelining

theorem filter_len_mono {p q : Nat → Bool}
    (hmono : ∀ a, p a = true → q a = true) :
    ∀ l : List Nat, (l.filter p).length ≤ (l.filter q).length := by
  intro l
  induction l with
  | nil => simp
  | cons a l ih =>
    rw [List.filter_cons, List.filter_cons]
    by_cases hpa : p a = true
    · rw [if_pos hpa, if_pos (hmono a hpa)]
      simpa using ih
    · rw [if_neg hpa]
      by_cases hqa : q a = true
      · rw [if_pos hqa]
        simp only [List.length_cons]
        omega
      · rw [if_neg hqa]
        exact ih

theorem filter_len_lt {p q : Nat → Bool} (s : Nat)
    (hmono : ∀ a, p a = true → q a = true)
    (hqs : q s = true) (hps : p s = false) :
    ∀ l : List Nat, s ∈ l → (l.filter p).length < (l.filter q).length := by
  intro l
  induction l with
  | nil =>
    intro h
    exact absurd h (List.not_mem_nil s)
  | cons a l ih =>
    intro hs
    rw [List.filter_cons, List.filter_cons]
    rcases List.mem_cons.mp hs with heq | hmem
    · rw [← heq, if_neg (by simp [hps]), if_pos (by rw [hqs])]
      have := filter_len_mono hmono l
      simp only [List.length_cons]
      omega
    · by_cases hpa : p a = true
      · rw [if_pos hpa, if_pos (by rw [hmono a hpa])]
        simp only [List.length_cons]
        have := ih hmem
        omega
      · rw [if_neg hpa]
        by_cases hqa : q a = true
        · rw [if_pos hqa]
          simp only [List.length_cons]
          have := ih hmem
          omega
        · rw [if_neg hqa]
          exact ih hmem

theorem wcount_mono {g : dgraph} {t t2 : Nat → Int}
    (h : ∀ v, t2 v = 0 → t v = 0) : wcount g t2 ≤ wcount g t := by
  unfold wcount
  refine filter_len_mono ?_ g.keys
  intro a ha
  rw [beq_iff_eq] at ha ⊢
  exact h a ha

theorem wcount_lt {g : dgraph} {t t2 : Nat → Int} {s : Nat}
    (hs : s ∈ g.keys) (hts : t s = 0) (ht2s : t2 s ≠ 0)
    (h : ∀ v, t2 v = 0 → t v = 0) : wcount g t2 < wcount g t := by
  unfold wcount
  refine filter_len_lt s ?_ ?_ ?_ g.keys hs
  · intro a ha
    rw [beq_iff_eq] at ha ⊢
    exact h a ha
  · rw [beq_iff_eq]
    exact hts
  · rw [beq_eq_false_iff_ne]
    exact ht2s

theorem dfs_from_succ (g : dgraph) (fuel : Nat) (start : Nat) (time : Int)
    (times : Nat → Int) :
    dfs_from g (fuel + 1) start time times =
      ((fun v => if v = start then
          ((g.edges start).foldl
            (fun (q : (Nat → Int) × Int) n =>
              if q.1 n ≠ 0 then q else dfs_from g fuel n q.2 q.1)
            ((fun v => if v = start then time else times v), time + 1)).2
        else
          ((g.edges start).foldl
            (fun (q : (Nat → Int) × Int) n =>
              if q.1 n ≠ 0 then q else dfs_from g fuel n q.2 q.1)
            ((fun v => if v = start then time else times v), time + 1)).1 v),
       ((g.edges start).foldl
          (fun (q : (Nat → Int) × Int) n =>
            if q.1 n ≠ 0 then q else dfs_from g fuel n q.2 q.1)
          ((fun v => if v = start then time else times v), time + 1)).2 + 1) := by
  simp only [dfs_from]

end pipelining



namespace pipelining

theorem dfs_loop_spec (g : dgraph) (fuel : Nat) (IH : FromSpec g fuel) :
    ∀ (ns : List Nat) (time : Int) (times : Nat → Int) (G : List Nat)
      (q : (Nat → Int) × Int),
      q = ns.foldl
        (fun (q : (Nat → Int) × Int) n =>
          if q.1 n ≠ 0 then q else dfs_from g fuel n q.2 q.1)
        (times, time) →
      (∀ v, v ∈ ns → v ∈ g.keys) →
      wcount g times ≤ fuel →
      0 < time →
      (∀ v, times v ≠ 0 → times v < time) →
      (∀ x, x ∈ G → times x ≠ 0) →
      BlackInv g G times →
      (∀ v, q.1 v ≠ times v → times v = 0 ∧ v ∈ g.keys ∧
        (∃ u, u ∈ ns ∧ Reach g u v) ∧ q.1 v ≠ 0) ∧
      (∀ v, times v ≠ 0 → q.1 v = times v) ∧
      (∀ v, v ∈ ns → q.1 v ≠ 0) ∧
      time ≤ q.2 ∧
      (∀ v, q.1 v ≠ 0 → q.1 v < q.2) ∧
      BlackInv g G q.1 ∧
      wcount g q.1 ≤ wcount g times := by
  intro ns
  induction ns with
  | nil =>
    intro time times G q hq hns hfuel htime hbound hgray hblack
    rw [List.foldl_nil] at hq
    subst hq
    refine ⟨?_, fun v _ => rfl, ?_, le_refl _, hbound, hblack, le_refl _⟩
    · intro v hv
      exact absurd rfl hv
    · intro v hv
      exact absurd hv (List.not_mem_nil v)
  | cons n ns ihl =>
    intro time times G q hq hns hfuel htime hbound hgray hblack
    rw [List.foldl_cons] at hq
    dsimp only at hq
    by_cases hn : times n ≠ 0
    · rw [if_pos hn] at hq
      obtain ⟨post1, post2, post3, post4, post5, post6, post7⟩ :=
        ihl time times G q hq (fun v hv => hns v (List.mem_cons_of_mem _ hv))
          hfuel htime hbound hgray hblack
      refine ⟨?_, post2, ?_, post4, post5, post6, post7⟩
      · intro v hv
        obtain ⟨h1, h2, ⟨u, hu1, hu2⟩, h4⟩ := post1 v hv
        exact ⟨h1, h2, ⟨u, List.mem_cons_of_mem _ hu1, hu2⟩, h4⟩
      · intro v hv
        rcases List.mem_cons.mp hv with heq | hv2
        · rw [heq, post2 n hn]
          exact hn
        · exact post3 v hv2
    · rw [if_neg hn] at hq
      rw [not_not] at hn
      obtain ⟨f1, f2, f3, f4, f5, f6, f7⟩ :=
        IH n time times G (dfs_from g fuel n time times) rfl hfuel
          (hns n (List.mem_cons_self n ns)) hn htime hbound hgray hblack
      obtain ⟨post1, post2, post3, post4, post5, post6, post7⟩ :=
        ihl (dfs_from g fuel n time times).2 (dfs_from g fuel n time times).1
          G q hq (fun v hv => hns v (List.mem_cons_of_mem _ hv))
          (by omega) (by omega) f5
          (fun x hx => by
            rw [f2 x (hgray x hx)]
            exact hgray x hx)
          f6
      refine ⟨?_, ?_, ?_, by omega, post5, post6, by omega⟩
      · intro v hv
        by_cases hv2 : (dfs_from g fuel n time times).1 v = times v
        · obtain ⟨h1, h2, ⟨u, hu1, hu2⟩, h4⟩ := post1 v (by rw [hv2]; exact hv)
          refine ⟨?_, h2, ⟨u, List.mem_cons_of_mem _ hu1, hu2⟩, h4⟩
          rw [← hv2]
          exact h1
        · obtain ⟨h1, h2, h3, h4⟩ := f1 v hv2
          refine ⟨h1, h2, ⟨n, List.mem_cons_self n ns, h3⟩, ?_⟩
          rw [post2 v h4]
          exact h4
      · intro v hv
        rw [post2 v (by rw [f2 v hv]; exact hv), f2 v hv]
      · intro v hv
        rcases List.mem_cons.mp hv with heq | hv2
        · rw [heq, post2 n f3]
          exact f3
        · exact post3 v hv2

end pipelining



namespace pipelining

theorem dfs_from_spec (g : dgraph) (hwf : WFg g) (hac : Acyclic g) :
    ∀ fuel, FromSpec g fuel := by
  intro fuel
  induction fuel with
  | zero =>
    intro start time times G p hp hfuel hkey hwhite htime hbound hgray hblack
    exfalso
    have hmem : start ∈ g.keys.filter (fun v => times v == 0) := by
      rw [List.mem_filter]
      refine ⟨hkey, ?_⟩
      rw [beq_iff_eq]
      exact hwhite
    have hpos : 0 < wcount g times := by
      unfold wcount
      exact List.length_pos.mpr (List.ne_nil_of_mem hmem)
    omega
  | succ fuel ihf =>
    intro start time times G p hp hfuel hkey hwhite htime hbound hgray hblack
    rw [dfs_from_succ] at hp
    set q := (g.edges start).foldl
      (fun (q : (Nat → Int) × Int) n =>
        if q.1 n ≠ 0 then q else dfs_from g fuel n q.2 q.1)
      ((fun v => if v = start then time else times v), time + 1) with hqdef
    have hstep : wcount g (fun v => if v = start then time else times v)
        < wcount g times := by
      refine wcount_lt hkey hwhite ?_ ?_
      · show (if start = start then time else times start) ≠ 0
        rw [if_pos rfl]
        omega
      · intro v hv
        have hv2 : (if v = start then time else times v) = 0 := hv
        by_cases hvs : v = start
        · rw [if_pos hvs] at hv2
          omega
        · rw [if_neg hvs] at hv2
          exact hv2
    have hbound1 : ∀ v, (fun v => if v = start then time else times v) v ≠ 0 →
        (fun v => if v = start then time else times v) v < time + 1 := by
      intro v hv
      show (if v = start then time else times v) < time + 1
      by_cases hvs : v = start
      · rw [if_pos hvs]
        omega
      · rw [if_neg hvs]
        have hv2 : times v ≠ 0 := by
          have h3 : (if v = start then time else times v) ≠ 0 := hv
          rw [if_neg hvs] at h3
          exact h3
        have := hbound v hv2
        omega
    have hgray1 : ∀ x, x ∈ start :: G →
        (fun v => if v = start then time else times v) x ≠ 0 := by
      intro x hx
      show (if x = start then time else times x) ≠ 0
      by_cases hxs : x = start
      · rw [if_pos hxs]
        omega
      · rw [if_neg hxs]
        rcases List.mem_cons.mp hx with heq | hx2
        · exact absurd heq hxs
        · exact hgray x hx2
    have hblack1 : BlackInv g (start :: G)
        (fun v => if v = start then time else times v) := by
      intro u hu hnz hug v hv
      have hus : u ≠ start := by
        intro h
        exact hug (by rw [h]; exact List.mem_cons_self start G)
      have hnz2 : times u ≠ 0 := by
        have h3 : (if u = start then time else times u) ≠ 0 := hnz
        rw [if_neg hus] at h3
        exact h3
      have hug2 : u ∉ G := fun h => hug (List.mem_cons_of_mem _ h)
      obtain ⟨hv1, hv2⟩ := hblack u hu hnz2 hug2 v hv
      constructor
      · show (if v = start then time else times v) ≠ 0
        by_cases hvs : v = start
        · rw [if_pos hvs]
          omega
        · rw [if_neg hvs]
          exact hv1
      · by_cases hvs : v = start
        · exact Or.inl (by rw [hvs]; exact List.mem_cons_self start G)
        · rcases hv2 with h | h
          · exact Or.inl (List.mem_cons_of_mem _ h)
          · right
            show (if v = start then time else times v) <
              (if u = start then time else times u)
            rw [if_neg hvs, if_neg hus]
            exact h
    obtain ⟨L1, L2, L3, L4, L5, L6, L7⟩ := dfs_loop_spec g fuel ihf
      (g.edges start) (time + 1)
      (fun v => if v = start then time else times v) (start :: G) q hqdef
      (fun v hv => hwf.2 start v hv)
      (by omega) (by omega) hbound1 hgray1 hblack1
    subst hp
    have hq2pos : 0 < q.2 := by omega
    refine ⟨?_, ?_, ?_, ?_, ?_, ?_, ?_⟩
    · intro v hv
      have hv2 : (if v = start then q.2 else q.1 v) ≠ times v := hv
      by_cases hvs : v = start
      · rw [hvs]
        refine ⟨hwhite, hkey, Relation.ReflTransGen.refl, ?_⟩
        show (if start = start then q.2 else q.1 start) ≠ 0
        rw [if_pos rfl]
        omega
      · rw [if_neg hvs] at hv2
        have hv3 : q.1 v ≠ (fun v => if v = start then time else times v) v := by
          show q.1 v ≠ (if v = start then time else times v)
          rw [if_neg hvs]
          exact hv2
        obtain ⟨h1, h2, ⟨u, hu1, hu2⟩, h4⟩ := L1 v hv3
        have h1s : times v = 0 := by
          have h5 : (if v = start then time else times v) = 0 := h1
          rw [if_neg hvs] at h5
          exact h5
        refine ⟨h1s, h2, Relation.ReflTransGen.head hu1 hu2, ?_⟩
        show (if v = start then q.2 else q.1 v) ≠ 0
        rw [if_neg hvs]
        exact h4
    · intro v hv
      show (if v = start then q.2 else q.1 v) = times v
      have hvs : v ≠ start := by
        intro h
        rw [h] at hv
        exact hv hwhite
      rw [if_neg hvs]
      have hnz1 : (fun v => if v = start then time else times v) v ≠ 0 := by
        show (if v = start then time else times v) ≠ 0
        rw [if_neg hvs]
        exact hv
      rw [L2 v hnz1]
      show (if v = start then time else times v) = times v
      rw [if_neg hvs]
    · show (if start = start then q.2 else q.1 start) ≠ 0
      rw [if_pos rfl]
      omega
    · show time < q.2 + 1
      omega
    · intro v hv
      show (if v = start then q.2 else q.1 v) < q.2 + 1
      have hv2 : (if v = start then q.2 else q.1 v) ≠ 0 := hv
      by_cases hvs : v = start
      · rw [if_pos hvs]
        omega
      · rw [if_neg hvs] at hv2 ⊢
        have := L5 v hv2
        omega
    · intro u hu hnz hug v hv
      have hnz2 : (if u = start then q.2 else q.1 u) ≠ 0 := hnz
      by_cases hus : u = start
      · by_cases hvs : v = start
        · exfalso
          rw [hus, hvs] at hv
          exact hac start start hv Relation.ReflTransGen.refl
        · rw [hus] at hv
          constructor
          · show (if v = start then q.2 else q.1 v) ≠ 0
            rw [if_neg hvs]
            exact L3 v hv
          · right
            show (if v = start then q.2 else q.1 v) <
              (if u = start then q.2 else q.1 u)
            rw [if_neg hvs, if_pos hus]
            exact L5 v (L3 v hv)
      · rw [if_neg hus] at hnz2
        by_cases hvs : v = start
        · exfalso
          by_cases hqu : q.1 u =
              (fun v => if v = start then time else times v) u
          · have hqu2 : q.1 u = times u := by
              rw [hqu]
              show (if u = start then time else times u) = times u
              rw [if_neg hus]
            have hnzu : times u ≠ 0 := by
              rw [← hqu2]
              exact hnz2
            obtain ⟨hzv, -⟩ := hblack u hu hnzu hug v hv
            rw [hvs] at hzv
            exact hzv hwhite
          · obtain ⟨-, -, ⟨w, hw1, hw2⟩, -⟩ := L1 u hqu
            exact hac u start (by rw [← hvs]; exact hv)
              (Relation.ReflTransGen.head hw1 hw2)
        · have hux : u ∉ start :: G := by
            intro h
            rcases List.mem_cons.mp h with h1 | h2
            · exact hus h1
            · exact hug h2
          obtain ⟨hzv, hor⟩ := L6 u hu hnz2 hux v hv
          constructor
          · show (if v = start then q.2 else q.1 v) ≠ 0
            rw [if_neg hvs]
            exact hzv
          · rcases hor with h | h
            · rcases List.mem_cons.mp h with h1 | h2
              · exact absurd h1 hvs
              · exact Or.inl h2
            · right
              show (if v = start then q.2 else q.1 v) <
                (if u = start then q.2 else q.1 u)
              rw [if_neg hvs, if_neg hus]
              exact h
    · show wcount g (fun v => if v = start then q.2 else q.1 v) + 1 ≤
        wcount g times
      have hm : wcount g (fun v => if v = start then q.2 else q.1 v) ≤
          wcount g q.1 := by
        refine wcount_mono ?_
        intro v hv
        have hv2 : (if v = start then q.2 else q.1 v) = 0 := hv
        by_cases hvs : v = start
        · rw [if_pos hvs] at hv2
          omega
        · rw [if_neg hvs] at hv2
          exact hv2
      omega

end pipelining



namespace pipelining

theorem dfs_all_spec (g : dgraph) (hwf : WFg g) (hac : Acyclic g) :
    (∀ v, v ∈ g.keys → (dfs_all g).1 v ≠ 0) ∧
    (∀ u, u ∈ g.keys → ∀ v, v ∈ g.edges u →
      (dfs_all g).1 v ≠ 0 ∧ (dfs_all g).1 v < (dfs_all g).1 u) := by
  have hfuel : wcount g (fun _ => (0 : Int)) ≤ g.keys.length + 1 := by
    unfold wcount
    have h := List.length_filter_le
      (fun v => ((fun _ => (0 : Int)) v == 0)) g.keys
    omega
  have hbound0 : ∀ v : Nat, (fun _ : Nat => (0 : Int)) v ≠ 0 →
      (fun _ : Nat => (0 : Int)) v < 1 := fun v hv => (hv rfl).elim
  have hgray0 : ∀ x : Nat, x ∈ ([] : List Nat) →
      (fun _ : Nat => (0 : Int)) x ≠ 0 :=
    fun x hx => absurd hx (List.not_mem_nil x)
  have hblack0 : BlackInv g [] (fun _ => (0 : Int)) :=
    fun u hu hnz => (hnz rfl).elim
  obtain ⟨L1, L2, L3, L4, L5, L6, L7⟩ := dfs_loop_spec g (g.keys.length + 1)
    (dfs_from_spec g hwf hac (g.keys.length + 1)) g.keys.reverse 1
    (fun _ => (0 : Int)) [] (dfs_all g) rfl
    (fun v hv => List.mem_reverse.mp hv) hfuel (by omega) hbound0 hgray0
    hblack0
  constructor
  · intro v hv
    exact L3 v (List.mem_reverse.mpr hv)
  · intro u hu v hv
    obtain ⟨h1, h2⟩ := L6 u hu (L3 u (List.mem_reverse.mpr hu))
      (List.not_mem_nil u) v hv
    refine ⟨h1, ?_⟩
    rcases h2 with h | h
    · exact absurd h (List.not_mem_nil v)
    · exact h

theorem pairwise_split {T : Nat → Nat → Prop} :
    ∀ (l : List Nat) (u v : Nat), l.Pairwise T → u ∈ l → v ∈ l → u ≠ v →
      ¬T v u → ∃ l1 l2 l3, l = l1 ++ u :: (l2 ++ v :: l3) := by
  intro l
  induction l with
  | nil =>
    intro u v _ hu
    exact absurd hu (List.not_mem_nil u)
  | cons x xs ih =>
    intro u v hpw hu hv hne hT
    rw [List.pairwise_cons] at hpw
    rcases List.mem_cons.mp hu with hux | hu2
    · have hvx : v ∈ xs := by
        rcases List.mem_cons.mp hv with hvv | h
        · exact absurd (hvv.trans hux.symm) (Ne.symm hne)
        · exact h
      obtain ⟨s, t, hst⟩ := List.append_of_mem hvx
      refine ⟨[], s, t, ?_⟩
      rw [List.nil_append, hst, hux]
    · rcases List.mem_cons.mp hv with hvx | hv2
      · exfalso
        refine hT ?_
        rw [hvx]
        exact hpw.1 u hu2
      · obtain ⟨l1, l2, l3, hsp⟩ := ih u v hpw.2 hu2 hv2 hne hT
        refine ⟨x :: l1, l2, l3, ?_⟩
        rw [hsp]
        rfl

theorem toposort_topo (g : dgraph) (hwf : WFg g) (hac : Acyclic g) :
    (toposort g).Perm g.keys ∧
    ∀ u v, u ∈ g.keys → v ∈ g.edges u → u ≠ v →
      ∃ l1 l2 l3, toposort g = l1 ++ u :: (l2 ++ v :: l3) := by
  obtain ⟨hall, hedge⟩ := dfs_all_spec g hwf hac
  set times := (dfs_all g).1 with htdef
  set sp := (g.keys.map (fun n => (-(times n), n))).insertionSort pairLE
    with hspdef
  have hperm : sp.Perm (g.keys.map (fun n => (-(times n), n))) :=
    List.perm_insertionSort _ _
  have htopo : toposort g = sp.map (fun q => q.2) := rfl
  have hpermorder : (toposort g).Perm g.keys := by
    rw [htopo]
    have h1 := hperm.map (fun q : Int × Nat => q.2)
    have h2 : (g.keys.map (fun n => (-(times n), n))).map
        (fun q : Int × Nat => q.2) = g.keys := by
      rw [List.map_map]
      exact List.map_id g.keys
    rw [h2] at h1
    exact h1
  refine ⟨hpermorder, ?_⟩
  haveI htot : IsTotal (Int × Nat) pairLE := ⟨by
    intro a b
    unfold pairLE
    omega⟩
  haveI htrans : IsTrans (Int × Nat) pairLE := ⟨by
    intro a b c hab hbc
    unfold pairLE at hab hbc ⊢
    omega⟩
  have hsorted : List.Sorted pairLE sp := List.sorted_insertionSort pairLE _
  have hshape : ∀ q, q ∈ sp → q = (-(times q.2), q.2) := by
    intro q hq
    have hq2 : q ∈ g.keys.map (fun n => (-(times n), n)) := hperm.mem_iff.mp hq
    obtain ⟨n, hn, hqn⟩ := List.mem_map.mp hq2
    rw [← hqn]
  have hpw : (sp.map (fun q => q.2)).Pairwise
      (fun a b => pairLE (-(times a), a) (-(times b), b)) := by
    rw [List.pairwise_map]
    refine List.Pairwise.imp_of_mem ?_ hsorted
    intro a b ha hb hab
    have ha2 := hshape a ha
    have hb2 := hshape b hb
    rw [← ha2, ← hb2]
    exact hab
  intro u v hu hv hne
  obtain ⟨hvnz, hlt⟩ := hedge u hu v hv
  have hvkeys : v ∈ g.keys := hwf.2 u v hv
  have humem : u ∈ toposort g := hpermorder.mem_iff.mpr hu
  have hvmem : v ∈ toposort g := hpermorder.mem_iff.mpr hvkeys
  have hnT : ¬(fun a b => pairLE (-(times a), a) (-(times b), b)) v u := by
    intro h
    rcases h with h | ⟨h1, h2⟩
    · have h3 : -(times v) < -(times u) := h
      omega
    · have h3 : -(times v) = -(times u) := h1
      omega
  exact pairwise_split (toposort g) u v (by rw [htopo]; exact hpw)
    humem hvmem hne hnT

end pipelining



namespace pipelining

theorem mem_phase_edges (rep : Nat → Nat) :
    ∀ (rels : List (Nat × Nat × relType)) (u v : Nat),
      v ∈ phase_edges rep rels u ↔
        ∃ a b, (a, b, relType.depends) ∈ rels ∧ u = rep b ∧ v = rep a := by
  intro rels
  induction rels with
  | nil =>
    intro u v
    simp [phase_edges]
  | cons r rels ih =>
    intro u v
    obtain ⟨a, b, t⟩ := r
    cases t with
    | depends =>
      rw [show phase_edges rep ((a, b, relType.depends) :: rels) u =
        (if u = rep b then [rep a] else []) ++ phase_edges rep rels u
        from rfl]
      rw [List.mem_append, ih]
      constructor
      · rintro (h | ⟨a2, b2, hmem, hu, hv⟩)
        · by_cases hub : u = rep b
          · rw [if_pos hub] at h
            refine ⟨a, b, List.mem_cons_self _ _, hub, ?_⟩
            simpa using h
          · rw [if_neg hub] at h
            exact absurd h (List.not_mem_nil v)
        · exact ⟨a2, b2, List.mem_cons_of_mem _ hmem, hu, hv⟩
      · rintro ⟨a2, b2, hmem, hu, hv⟩
        rcases List.mem_cons.mp hmem with heq | hmem2
        · left
          have ha : a2 = a := by
            have h2 := congrArg (fun x : Nat × Nat × relType => x.1) heq
            simpa using h2
          have hb : b2 = b := by
            have h2 := congrArg (fun x : Nat × Nat × relType => x.2.1) heq
            simpa using h2
          rw [if_pos (by rw [hu, hb]), hv, ha]
          simp
        · exact Or.inr ⟨a2, b2, hmem2, hu, hv⟩
    | pushes =>
      rw [show phase_edges rep ((a, b, relType.pushes) :: rels) u =
        phase_edges rep rels u from rfl, ih]
      constructor
      · rintro ⟨a2, b2, hmem, hu, hv⟩
        exact ⟨a2, b2, List.mem_cons_of_mem _ hmem, hu, hv⟩
      · rintro ⟨a2, b2, hmem, hu, hv⟩
        rcases List.mem_cons.mp hmem with heq | hmem2
        · exfalso
          have h2 := congrArg (fun x : Nat × Nat × relType => x.2.2) heq
          simp at h2
        · exact ⟨a2, b2, hmem2, hu, hv⟩
    | pulls =>
      rw [show phase_edges rep ((a, b, relType.pulls) :: rels) u =
        phase_edges rep rels u from rfl, ih]
      constructor
      · rintro ⟨a2, b2, hmem, hu, hv⟩
        exact ⟨a2, b2, List.mem_cons_of_mem _ hmem, hu, hv⟩
      · rintro ⟨a2, b2, hmem, hu, hv⟩
        rcases List.mem_cons.mp hmem with heq | hmem2
        · exfalso
          have h2 := congrArg (fun x : Nat × Nat × relType => x.2.2) heq
          simp at h2
        · exact ⟨a2, b2, hmem2, hu, hv⟩

end pipelining



namespace pipelining

theorem getLast?_cons_or (l : List Nat) : ∀ s : Nat,
    (s :: l).getLast? = (l.getLast?).or (some s) := by
  induction l with
  | nil =>
    intro s
    rfl
  | cons y l2 ih =>
    intro s
    rw [List.getLast?_cons_cons, ih y]
    cases l2.getLast? <;> rfl

theorem phase_addAll_general (indegPush indegPull : Nat → Nat) :
    ∀ (ss : List Nat) (p : phaseState),
      (∀ s, s ∈ ss → s ∉ p.segs) → ss.Nodup →
      (ss.foldl (phase_add indegPush indegPull) p).segs = p.segs ++ ss ∧
      (ss.foldl (phase_add indegPush indegPull) p).initiator =
        ((ss.filter (fun s => is_initiator indegPush indegPull s)).getLast?).or
          p.initiator := by
  intro ss
  induction ss with
  | nil =>
    intro p hdisj hnd
    simp
  | cons s ss ih =>
    intro p hdisj hnd
    rw [List.foldl_cons]
    have hs : s ∉ p.segs := hdisj s (List.mem_cons_self s ss)
    have hsegs : (phase_add indegPush indegPull p s).segs = p.segs ++ [s] := by
      unfold phase_add
      rw [if_neg hs]
      by_cases hinit : is_initiator indegPush indegPull s = true
      · rw [if_pos hinit]
        rfl
      · rw [if_neg hinit]
    have hini : (phase_add indegPush indegPull p s).initiator =
        (if is_initiator indegPush indegPull s then some s
         else p.initiator) := by
      unfold phase_add
      rw [if_neg hs]
      by_cases hinit : is_initiator indegPush indegPull s = true
      · rw [if_pos hinit, if_pos hinit]
        rfl
      · rw [if_neg hinit, if_neg hinit]
    obtain ⟨ih1, ih2⟩ := ih (phase_add indegPush indegPull p s)
      (fun x hx hmem => by
        rw [hsegs] at hmem
        rcases List.mem_append.mp hmem with h1 | h2
        · exact hdisj x (List.mem_cons_of_mem _ hx) h1
        · rw [List.mem_singleton] at h2
          rw [h2] at hx
          exact (List.nodup_cons.mp hnd).1 hx)
      (List.nodup_cons.mp hnd).2
    constructor
    · rw [ih1, hsegs, List.append_assoc]
      rfl
    · rw [ih2, hini, List.filter_cons]
      by_cases hinit : is_initiator indegPush indegPull s = true
      · rw [if_pos hinit, if_pos hinit, getLast?_cons_or]
        cases (ss.filter
          (fun x => is_initiator indegPush indegPull x)).getLast? <;> rfl
      · rw [if_neg hinit, if_neg hinit]

theorem endCalls_append (l1 l2 : List goEvent) :
    endCalls (l1 ++ l2) = endCalls l1 ++ endCalls l2 := by
  unfold endCalls
  rw [List.filterMap_append]

theorem endCalls_beginE (l : List Nat) :
    endCalls (l.map goEvent.beginE) = [] := by
  induction l with
  | nil => rfl
  | cons x l ihl =>
    rw [List.map_cons]
    exact ihl

theorem endCalls_endE (l : List Nat) :
    endCalls (l.map goEvent.endE) = l := by
  induction l with
  | nil => rfl
  | cons x l ihl =>
    rw [List.map_cons]
    exact congrArg (List.cons x) ihl

theorem endCalls_go_trace (g : dgraph) (ini : Nat) :
    endCalls (go_trace g ini) = toposort g := by
  unfold go_trace
  rw [endCalls_append, endCalls_beginE, List.nil_append]
  show endCalls ((toposort g).map goEvent.endE) = toposort g
  exact endCalls_endE _

end pipelining



open pipelining

/-- C5: for every pipeline graph whose lifted depends-on relation
between phases is acyclic, the executed phase order
(`phasegraph::execution_order`, a DFS toposort over the phase
representatives) executes every phase exactly once (it is a permutation
of the phase keys) and respects every lifted `depends` edge: the
dependee's phase appears strictly before the depender's phase.
Determinism holds by construction: the order is a function of the
segment map alone. -/
theorem C5_phase_order (rep : Nat → Nat) (n : Nat)
    (rels : List (Nat × Nat × relType))
    (hrep : ∀ i, i < n → rep i < n ∧ rep (rep i) = rep i)
    (hrels : ∀ r, r ∈ rels → r.1 < n ∧ r.2.1 < n)
    (hacyc : Acyclic (phasegraph rep n rels)) :
    (execution_order (phasegraph rep n rels)).Perm (phase_keys rep n) ∧
    ∀ a b, (a, b, relType.depends) ∈ rels → rep a ≠ rep b →
      ∃ l1 l2 l3, execution_order (phasegraph rep n rels) =
        l1 ++ rep b :: (l2 ++ rep a :: l3) := by
  have hkeymem : ∀ i, i < n → rep i ∈ phase_keys rep n := by
    intro i hi
    obtain ⟨h1, h2⟩ := hrep i hi
    rw [phase_keys, List.mem_filter, List.mem_range]
    refine ⟨h1, ?_⟩
    rw [beq_iff_eq]
    exact h2
  have hwf : WFg (phasegraph rep n rels) := by
    constructor
    · exact (List.nodup_range n).filter _
    · intro u v hv
      obtain ⟨a, b, hab, hu, hvv⟩ := (mem_phase_edges rep rels u v).mp hv
      rw [hvv]
      exact hkeymem a (hrels _ hab).1
  obtain ⟨hperm, hsplit⟩ := toposort_topo (phasegraph rep n rels) hwf hacyc
  refine ⟨hperm, ?_⟩
  intro a b hmem hne
  refine hsplit (rep b) (rep a) ?_ ?_ (Ne.symm hne)
  · exact hkeymem b (hrels _ hmem).2
  · show rep a ∈ phase_edges rep rels (rep b)
    rw [mem_phase_edges]
    exact ⟨a, b, hmem, rfl, rfl⟩

/-- C5 witness: a two-phase graph (identity representatives, one
`depends` relation) satisfies the hypotheses and gets the asserted
order. -/
theorem C5_witness :
    (execution_order
       (phasegraph (fun i => i) 2 [(1, 0, relType.depends)])).Perm
      (phase_keys (fun i => i) 2) ∧
    ∀ a b, (a, b, relType.depends) ∈ [(1, 0, relType.depends)] →
      (fun i : Nat => i) a ≠ (fun i : Nat => i) b →
      ∃ l1 l2 l3,
        execution_order (phasegraph (fun i => i) 2
          [(1, 0, relType.depends)]) =
          l1 ++ (fun i : Nat => i) b :: (l2 ++ (fun i : Nat => i) a :: l3) :=
  C5_phase_order (fun i => i) 2 [(1, 0, relType.depends)]
    (by decide) (by decide)
    (by
      intro u v he hr
      by_cases hu : u = 0
      · have hv1 : v = 1 := by
          have h3 : v ∈ ((if u = (0 : Nat) then [1] else ([] : List Nat)) ++
              ([] : List Nat)) := he
          rw [if_pos hu] at h3
          simpa using h3
        rcases Relation.ReflTransGen.cases_head hr with heq | ⟨c, hc, -⟩
        · rw [hu, hv1] at heq
          exact absurd heq (by decide)
        · have hc2 : c ∈ ([] : List Nat) := by
            have h4 : c ∈ ((if v = (0 : Nat) then [1] else ([] : List Nat)) ++
                ([] : List Nat)) := hc
            rw [if_neg (by rw [hv1]; omega)] at h4
            simp at h4
          exact absurd hc2 (List.not_mem_nil c)
      · have h3 : v ∈ ((if u = (0 : Nat) then [1] else ([] : List Nat)) ++
            ([] : List Nat)) := he
        rw [if_neg hu] at h3
        simp at h3)

/-- C8 (amended): `phase::add` has no failure path.  Adding any list of
distinct segments to a fresh phase accepts every one of them, and the
phase's initiator field ends up holding the last added segment whose
in-degree under both `pushes` and `pulls` is zero (`set_initiator`
simply overwrites), or nothing when no such segment exists; no
multiple-initiators or no-initiator error is ever raised. -/
theorem C8_initiator_amended (indegPush indegPull : Nat → Nat)
    (ss : List Nat) (hnd : ss.Nodup) :
    (phase_addAll indegPush indegPull ss).segs = ss ∧
    (phase_addAll indegPush indegPull ss).initiator =
      (ss.filter (fun s => is_initiator indegPush indegPull s)).getLast? := by
  obtain ⟨h1, h2⟩ := phase_addAll_general indegPush indegPull ss
    { segs := [], initiator := none }
    (fun s _ h => absurd h (List.not_mem_nil s)) hnd
  constructor
  · show (ss.foldl (phase_add indegPush indegPull)
      { segs := [], initiator := none }).segs = ss
    rw [h1]
    rfl
  · show (ss.foldl (phase_add indegPush indegPull)
      { segs := [], initiator := none }).initiator = _
    rw [h2]
    cases (ss.filter (fun s => is_initiator indegPush indegPull s)).getLast?
      <;> rfl

/-- C8 counterexample: with two initiator segments (both in-degrees
zero) `phase::add` reports no multiple-initiators error — both segments
are accepted and the last one wins; with no initiator segment there is
no no-initiator error either — the phase is built with an empty
initiator field. -/
theorem C8_counterexample :
    (phase_addAll (fun _ => 0) (fun _ => 0) [4, 7]).initiator = some 7 ∧
    (phase_addAll (fun _ => 0) (fun _ => 0) [4, 7]).segs = [4, 7] ∧
    (phase_addAll (fun _ => 1) (fun _ => 1) [4, 7]).initiator = none ∧
    (phase_addAll (fun _ => 1) (fun _ => 1) [4, 7]).segs = [4, 7] := by
  refine ⟨rfl, rfl, rfl, rfl⟩

/-- C8 witness: the amended theorem applied to two concrete initiator
segments. -/
theorem C8_witness :
    ([4, 7] : List Nat).Nodup ∧
    (phase_addAll (fun _ => 0) (fun _ => 0) [4, 7]).segs = [4, 7] ∧
    (phase_addAll (fun _ => 0) (fun _ => 0) [4, 7]).initiator = some 7 := by
  refine ⟨by decide, ?_, ?_⟩
  · exact (C8_initiator_amended (fun _ => 0) (fun _ => 0) [4, 7]
      (by decide)).1
  · rw [(C8_initiator_amended (fun _ => 0) (fun _ => 0) [4, 7]
      (by decide)).2]
    rfl

/-- C9 (amended): within `phase::go`, after the initiator returns,
`end()` is called exactly once per node of the phase in the *same
forward* topological order as `begin()` — for every push/pull edge
`u → v` of the acyclic phase DAG, the upstream producer `u` receives
`end()` strictly before the downstream consumer `v` (not after it, as
the reverse-order claim requires). -/
theorem C9_end_order_amended (g : dgraph) (ini : Nat) (hwf : WFg g)
    (hac : Acyclic g) :
    endCalls (go_trace g ini) = toposort g ∧
    (toposort g).Perm g.keys ∧
    ∀ u v, u ∈ g.keys → v ∈ g.edges u → u ≠ v →
      ∃ l1 l2 l3, toposort g = l1 ++ u :: (l2 ++ v :: l3) := by
  obtain ⟨hperm, hsplit⟩ := toposort_topo g hwf hac
  exact ⟨endCalls_go_trace g ini, hperm, hsplit⟩

/-- C9 counterexample: a two-node phase where node 0 pushes to node 1.
The toposort is `[0, 1]` and the `end()` calls are issued in that same
forward order — `end()` on the upstream node 0 happens before `end()`
on the downstream node 1, contradicting the claimed reverse topological
order. -/
theorem C9_counterexample :
    toposort (⟨[0, 1], fun n => if n = 0 then [1] else []⟩ : dgraph) =
      [0, 1] ∧
    (1 : Nat) ∈
      (⟨[0, 1], fun n => if n = 0 then [1] else []⟩ : dgraph).edges 0 ∧
    endCalls (go_trace
      (⟨[0, 1], fun n => if n = 0 then [1] else []⟩ : dgraph) 0) =
      [0, 1] := by
  refine ⟨by decide, by decide, by decide⟩

/-- C9 witness: the amended theorem applied to the same two-node
phase. -/
theorem C9_witness :
    endCalls (go_trace
        (⟨[0, 1], fun n => if n = 0 then [1] else []⟩ : dgraph) 0) =
      toposort (⟨[0, 1], fun n => if n = 0 then [1] else []⟩ : dgraph) ∧
    (toposort (⟨[0, 1], fun n => if n = 0 then [1] else []⟩ : dgraph)).Perm
      [0, 1] := by
  have h := C9_end_order_amended
    (⟨[0, 1], fun n => if n = 0 then [1] else []⟩ : dgraph) 0
    (by
      refine ⟨by decide, ?_⟩
      intro u v hv
      by_cases hu : u = 0
      · have h3 : v ∈ ([1] : List Nat) := by
          have h4 : v ∈ (if u = (0 : Nat) then [1] else ([] : List Nat)) := hv
          rw [if_pos hu] at h4
          exact h4
        have hv1 : v = 1 := by simpa using h3
        rw [hv1]
        decide
      · have h4 : v ∈ (if u = (0 : Nat) then [1] else ([] : List Nat)) := hv
        rw [if_neg hu] at h4
        exact absurd h4 (List.not_mem_nil v))
    (by
      intro u v he hr
      by_cases hu : u = 0
      · have hv1 : v = 1 := by
          have h3 : v ∈ (if u = (0 : Nat) then [1] else ([] : List Nat)) := he
          rw [if_pos hu] at h3
          simpa using h3
        rcases Relation.ReflTransGen.cases_head hr with heq | ⟨c, hc, -⟩
        · rw [hu, hv1] at heq
          exact absurd heq (by decide)
        · have hc2 : c ∈ ([] : List Nat) := by
            have h4 : c ∈ (if v = (0 : Nat) then [1] else ([] : List Nat)) := hc
            rw [if_neg (by rw [hv1]; omega)] at h4
            exact h4
          exact absurd hc2 (List.not_mem_nil c)
      · have h3 : v ∈ (if u = (0 : Nat) then [1] else ([] : List Nat)) := he
        rw [if_neg hu] at h3
        exact absurd h3 (List.not_mem_nil v))
  exact ⟨h.1, h.2.1⟩


end Tpie
